import Mathlib

/-!
Verification development for the streaming ASCII spectral-ingestion pipeline
(`spectral_app.ingestion.ascii_loader`, `spectral_app.utils.units`,
`spectral_app.models`) and the JWST spectrum loader
(`jwst_viewer.spectrum_loader`).

The embedding represents a floating-point cell as a `Val`: either a finite
rational number, NaN, or a signed infinity.  Arithmetic and comparisons follow
IEEE-754 semantics on these extended values (NaN propagates; comparisons with
NaN are false), which is exactly the behaviour `numpy` exhibits in the source
(`np.isfinite`, `np.diff(...) <= 0`, `np.argsort` placing NaN last, and so on).
Physical units are `(scale, dimension-vector)` pairs over the rationals.
-/

namespace SpectralApp

attribute [local semireducible] Rat.add Rat.mul Rat.inv Rat.sub Rat.ofScientific

/-- A floating-point cell value: finite rational, NaN, or a signed infinity. -/
inductive Val where
  | fin (q : ℚ)
  | nan
  | inf
  | ninf
deriving DecidableEq, Repr

namespace Val

/-- Model of `np.isfinite`. -/
def isFinite : Val → Bool
  | fin _ => true
  | _ => false

/-- Model of `np.isnan`. -/
def isNan : Val → Bool
  | nan => true
  | _ => false

/-- IEEE addition on extended values. -/
def add : Val → Val → Val
  | nan, _ => nan
  | _, nan => nan
  | inf, ninf => nan
  | ninf, inf => nan
  | inf, _ => inf
  | _, inf => inf
  | ninf, _ => ninf
  | _, ninf => ninf
  | fin a, fin b => fin (a + b)

/-- IEEE subtraction on extended values. -/
def sub : Val → Val → Val
  | nan, _ => nan
  | _, nan => nan
  | inf, inf => nan
  | ninf, ninf => nan
  | inf, _ => inf
  | _, inf => ninf
  | ninf, _ => ninf
  | _, ninf => inf
  | fin a, fin b => fin (a - b)

/-- Division by a positive finite count (used when averaging duplicates). -/
def divNat (n : ℕ) : Val → Val
  | fin a => fin (a / n)
  | nan => nan
  | inf => inf
  | ninf => ninf

/-- Model of the IEEE comparison `a <= 0` (false whenever `a` is NaN). -/
def leZero : Val → Bool
  | fin a => decide (a ≤ 0)
  | nan => false
  | inf => false
  | ninf => true

/-- Sort key used by `np.argsort`: `-inf < finite < +inf < NaN`
(NaN values sort to the end). -/
def key : Val → Val → Bool
  | ninf, _ => true
  | _, ninf => false
  | fin a, fin b => decide (a ≤ b)
  | fin _, _ => true
  | _, fin _ => false
  | inf, _ => true
  | nan, nan => true
  | nan, inf => false

/-- Strict order on extended values with IEEE NaN semantics:
any comparison involving NaN is false. -/
def lt : Val → Val → Bool
  | nan, _ => false
  | _, nan => false
  | fin a, fin b => decide (a < b)
  | ninf, ninf => false
  | ninf, _ => true
  | _, ninf => false
  | inf, _ => false
  | fin _, inf => true

/-- IEEE multiplication on extended values (`inf * 0 = NaN`). -/
def mul : Val → Val → Val
  | nan, _ => nan
  | _, nan => nan
  | fin a, fin b => fin (a * b)
  | inf, inf => inf
  | inf, ninf => ninf
  | ninf, inf => ninf
  | ninf, ninf => inf
  | inf, fin b => if b = 0 then nan else if 0 < b then inf else ninf
  | fin a, inf => if a = 0 then nan else if 0 < a then inf else ninf
  | ninf, fin b => if b = 0 then nan else if 0 < b then ninf else inf
  | fin a, ninf => if a = 0 then nan else if 0 < a then ninf else inf

/-- IEEE division on extended values (division of a nonzero finite value by
zero gives a signed infinity; `0/0`, `inf/inf` give NaN; the model has no
signed zero, so a finite value divided by zero takes the numerator's sign). -/
def div : Val → Val → Val
  | nan, _ => nan
  | _, nan => nan
  | inf, inf => nan
  | inf, ninf => nan
  | ninf, inf => nan
  | ninf, ninf => nan
  | inf, fin b => if 0 ≤ b then inf else ninf
  | ninf, fin b => if 0 ≤ b then ninf else inf
  | fin _, inf => fin 0
  | fin _, ninf => fin 0
  | fin a, fin b =>
    if b = 0 then (if a = 0 then nan else if 0 < a then inf else ninf)
    else fin (a / b)

theorem add_comm (a b : Val) : add a b = add b a := by
  cases a <;> cases b <;> simp [add, Rat.add_comm]

theorem key_trans (a b c : Val) : key a b = true → key b c = true → key a c = true := by
  cases a <;> cases b <;> cases c <;> simp [key] <;> exact fun h1 h2 => le_trans h1 h2

theorem key_total (a b : Val) : key a b || key b a := by
  cases a <;> cases b <;> simp [key] <;> exact le_total _ _

end Val

/-- The finite entries of a list of cells (`values[np.isfinite(values)]`). -/
def finiteVals (vs : List Val) : List ℚ :=
  vs.filterMap (fun v => match v with | .fin q => some q | _ => none)

@[simp] theorem finiteVals_nil : finiteVals [] = [] := rfl

theorem finiteVals_append (a b : List Val) :
    finiteVals (a ++ b) = finiteVals a ++ finiteVals b := by
  simp [finiteVals]

theorem finiteVals_eq_nil_of_not_any (vs : List Val)
    (h : vs.any Val.isFinite = false) : finiteVals vs = [] := by
  induction vs with
  | nil => rfl
  | cons v rest ih =>
    rw [List.any_cons] at h
    obtain ⟨h1, h2⟩ := Bool.or_eq_false_iff.mp h
    cases v with
    | fin q => exact absurd h1 (by simp [Val.isFinite])
    | nan => exact ih h2
    | inf => exact ih h2
    | ninf => exact ih h2

/-- Running minimum: fold one finite value into an optional running value.
`none` encodes the `+inf` sentinel of a freshly initialised accumulator
(the source resets `min` on the first finite batch). -/
def optMin (o : Option ℚ) (q : ℚ) : Option ℚ :=
  some (match o with | none => q | some m => min m q)

/-- Running maximum; `none` encodes the `-inf` sentinel. -/
def optMax (o : Option ℚ) (q : ℚ) : Option ℚ :=
  some (match o with | none => q | some m => max m q)

/-- Streaming statistics for a numeric column (`ColumnStats` in the source).
The source keeps `min`/`max` with `±inf` sentinels that are overwritten on the
first finite batch; here the not-yet-seen state is `none`. -/
structure ColumnStats where
  count : ℕ
  sum : ℚ
  sumSq : ℚ
  vmin : Option ℚ
  vmax : Option ℚ
deriving DecidableEq

namespace ColumnStats

/-- A freshly constructed `ColumnStats()`. -/
def init : ColumnStats := ⟨0, 0, 0, none, none⟩

/-- Model of `ColumnStats.update`: fold the finite entries of a batch into the
running aggregates; a batch with no finite entry is a no-op. -/
def update (s : ColumnStats) (vs : List Val) : ColumnStats :=
  let fs := finiteVals vs
  if fs.isEmpty then s
  else
    { count := s.count + fs.length
      sum := s.sum + fs.sum
      sumSq := s.sumSq + (fs.map (fun q => q * q)).sum
      vmin := fs.foldl optMin s.vmin
      vmax := fs.foldl optMax s.vmax }

/-- Serialisable summary produced by `ColumnStats.as_dict`.  The source emits
`count`, `min`, `max`, `mean` and `std = sqrt(variance)`; over the rationals we
record the variance, which determines `std`. -/
structure Summary where
  count : ℚ
  min : ℚ
  max : ℚ
  mean : ℚ
  variance : ℚ
deriving DecidableEq

/-- Model of `ColumnStats.as_dict`: empty (`none`) when no finite value was
ever seen, otherwise the derived summary. -/
def asDict (s : ColumnStats) : Option Summary :=
  if s.count = 0 then none
  else
    let mean := s.sum / (s.count : ℚ)
    some ⟨(s.count : ℚ), s.vmin.getD 0, s.vmax.getD 0, mean,
      max (s.sumSq / (s.count : ℚ) - mean ^ 2) 0⟩

theorem update_append (s : ColumnStats) (a b : List Val) :
    update (update s a) b = update s (a ++ b) := by
  unfold update
  rw [finiteVals_append]
  rcases ha : finiteVals a with _ | ⟨x, xs⟩ <;>
    rcases hb : finiteVals b with _ | ⟨y, ys⟩ <;>
      simp [List.foldl_append, add_assoc] <;> omega

theorem update_no_finite (s : ColumnStats) (vs : List Val)
    (h : vs.any Val.isFinite = false) : update s vs = s := by
  unfold update
  rw [finiteVals_eq_nil_of_not_any vs h]
  rfl

end ColumnStats

/-- A run of NaN cells, used to resolve deferred padding. -/
def nanPad (n : ℕ) : List Val := List.replicate n .nan

@[simp] theorem nanPad_zero : nanPad 0 = [] := rfl

theorem nanPad_add (m n : ℕ) : nanPad (m + n) = nanPad m ++ nanPad n := by
  simp only [nanPad, List.replicate_add]

theorem eq_nanPad_of_no_finite_no_inf (vs : List Val)
    (hfin : vs.any Val.isFinite = false)
    (hinf : ∀ v ∈ vs, v ≠ Val.inf ∧ v ≠ Val.ninf) :
    vs = nanPad vs.length := by
  induction vs with
  | nil => rfl
  | cons v rest ih =>
    rw [List.any_cons] at hfin
    obtain ⟨h1, h2⟩ := Bool.or_eq_false_iff.mp hfin
    have hv := hinf v (by simp)
    have hrest : ∀ w ∈ rest, w ≠ Val.inf ∧ w ≠ Val.ninf := fun w hw => hinf w (by simp [hw])
    cases v with
    | fin q => exact absurd h1 (by simp [Val.isFinite])
    | nan =>
      simp only [nanPad, List.length_cons, List.replicate_succ]
      exact congrArg (Val.nan :: ·) (ih h2 hrest)
    | inf => exact absurd rfl hv.1
    | ninf => exact absurd rfl hv.2

/-- Per-column state of the chunk accumulator: the flushed buffer (stored
flat; the source keeps a list of arrays that `finalize` concatenates), the
deferred-NaN counter, the numeric flag, and the running statistics. -/
structure ColState where
  buffer : List Val
  pendingNans : ℕ
  hasNumeric : Bool
  stats : ColumnStats
deriving DecidableEq

namespace ColState

/-- Initial state of a column in a fresh `ChunkAccumulator`. -/
def init : ColState := ⟨[], 0, false, .init⟩

/-- The per-column body of `ChunkAccumulator.process_chunk`: if the chunk has a
finite value in this column, flush the pending NaNs and append the raw column
values, else defer the whole chunk as pending NaNs. -/
def processCol (s : ColState) (vs : List Val) : ColState :=
  if vs.any Val.isFinite then
    { buffer := s.buffer ++ nanPad s.pendingNans ++ vs
      pendingNans := 0
      hasNumeric := true
      stats := s.stats.update vs }
  else { s with pendingNans := s.pendingNans + vs.length }

/-- The per-column part of `ChunkAccumulator.finalize`: concatenate (already
flat here), resolve trailing deferred NaNs, and drop never-numeric columns. -/
def finalCol (s : ColState) : Option (List Val) :=
  if s.hasNumeric then some (s.buffer ++ nanPad s.pendingNans) else none

/-- Canonical form of a column state: the buffer with pending NaNs resolved,
the numeric flag, and the statistics.  `finalCol` and the statistics output
factor through it. -/
def canon (s : ColState) : List Val × Bool × ColumnStats :=
  (s.buffer ++ nanPad s.pendingNans, s.hasNumeric, s.stats)

/-- One chunk, on canonical forms. -/
def canonStep (k : List Val × Bool × ColumnStats) (vs : List Val) :
    List Val × Bool × ColumnStats :=
  if vs.any Val.isFinite then (k.1 ++ vs, true, k.2.2.update vs)
  else (k.1 ++ nanPad vs.length, k.2.1, k.2.2)

theorem canon_processCol (s : ColState) (vs : List Val) :
    (s.processCol vs).canon = canonStep s.canon vs := by
  unfold processCol canonStep canon
  by_cases h : vs.any Val.isFinite <;> simp [h, nanPad_add, List.append_assoc]

theorem finalCol_eq_canon (s : ColState) :
    s.finalCol = if s.canon.2.1 then some s.canon.1 else none := rfl

theorem canonStep_append (k : List Val × Bool × ColumnStats) (a b : List Val)
    (hia : ∀ v ∈ a, v ≠ Val.inf ∧ v ≠ Val.ninf)
    (hib : ∀ v ∈ b, v ≠ Val.inf ∧ v ≠ Val.ninf) :
    canonStep (canonStep k a) b = canonStep k (a ++ b) := by
  unfold canonStep
  by_cases ha : a.any Val.isFinite <;> by_cases hb : b.any Val.isFinite
  · simp [ha, hb, List.any_append, ColumnStats.update_append, List.append_assoc]
  · have hb0 : b.any Val.isFinite = false := by simpa using hb
    have hpad : b = nanPad b.length := eq_nanPad_of_no_finite_no_inf b hb0 hib
    have hupd : ColumnStats.update k.2.2 (a ++ b) = ColumnStats.update k.2.2 a := by
      rw [← ColumnStats.update_append, ColumnStats.update_no_finite _ b hb0]
    simp only [ha, hb0, List.any_append, if_true, if_false, Bool.or_false,
      Bool.false_or, Bool.or_true, hupd]
    refine Prod.ext ?_ rfl
    conv_rhs => rw [hpad]
    simp [List.append_assoc]
  · have ha0 : a.any Val.isFinite = false := by simpa using ha
    have hpad : a = nanPad a.length := eq_nanPad_of_no_finite_no_inf a ha0 hia
    have hupd : ColumnStats.update k.2.2 (a ++ b) = ColumnStats.update k.2.2 b := by
      rw [← ColumnStats.update_append, ColumnStats.update_no_finite _ a ha0]
    simp only [ha0, hb, List.any_append, if_true, if_false, Bool.or_false,
      Bool.false_or, Bool.or_true, hupd]
    refine Prod.ext ?_ rfl
    conv_rhs => rw [hpad]
    simp [List.append_assoc]
  · have ha0 : a.any Val.isFinite = false := by simpa using ha
    have hb0 : b.any Val.isFinite = false := by simpa using hb
    simp [ha0, hb0, List.any_append, nanPad_add, List.append_assoc]

end ColState

/-- The downsample tier capacities (`DOWNSAMPLE_TIERS`). -/
def DOWNSAMPLE_TIERS : List ℕ := [512, 2048, 8192]

/-- A reservoir row: the finite cells of one input row, keyed by column name
(`Dict[str, float]` in the source; values are finite by construction). -/
def RowDict : Type := List (String × ℚ)

instance : DecidableEq RowDict := fun a b => List.hasDecEq a b

/-- Modelled from the spec: the seeded pseudorandom generator used by the
reservoir (`np.random.default_rng(seed)`, an external library).  The spec only
requires a deterministic per-accumulator stream fixed by the seed, so the
draw is an explicit function of the seed and the draw index; no theorem below
depends on the values drawn. `bound` is the exclusive upper bound of
`rng.integers(0, bound)` and is positive at every call site. -/
def mkDraw (seed idx bound : ℕ) : ℕ :=
  (seed + idx * 2654435761) % bound

/-- State of `RowReservoir`: the tier buckets, the seed,
the number of draws made so far, and the number of rows seen. -/
structure RowReservoir where
  tiers : List (ℕ × List RowDict)
  seed : ℕ
  drawCount : ℕ
  totalSeen : ℕ
deriving DecidableEq

namespace RowReservoir

/-- Constructor `RowReservoir(tiers, seed)`: empty buckets. -/
def init (sizes : List ℕ) (seed : ℕ) : RowReservoir :=
  ⟨sizes.map (fun s => (s, [])), seed, 0, 0⟩

/-- Offer one row to every tier: append while below capacity, else replace a
random slot when the drawn index lands inside the bucket. Returns the updated
buckets and the updated draw counter. -/
def addTiers (seed total : ℕ) (row : RowDict) :
    List (ℕ × List RowDict) → ℕ → List (ℕ × List RowDict) × ℕ
  | [], d => ([], d)
  | (size, bucket) :: rest, d =>
    if bucket.length < size then
      let r := addTiers seed total row rest d
      ((size, bucket ++ [row]) :: r.1, r.2)
    else
      let idx := mkDraw seed d total
      let bucket' := if idx < size then bucket.set idx row else bucket
      let r := addTiers seed total row rest (d + 1)
      ((size, bucket') :: r.1, r.2)

/-- Model of `RowReservoir.add`. -/
def add (r : RowReservoir) (row : RowDict) : RowReservoir :=
  if row.isEmpty then r
  else
    let total := r.totalSeen + 1
    let t := addTiers r.seed total row r.tiers r.drawCount
    ⟨t.1, r.seed, t.2, total⟩

/-- Model of `RowReservoir.export` (the source copies the row dicts; in a pure
model this is the identity on the tier list). -/
def exportTiers (r : RowReservoir) : List (ℕ × List RowDict) := r.tiers

end RowReservoir

/-- Column `i` of a chunk (`chunk[:, i]`); missing cells read as NaN, exactly
as the fallback parser pre-fills its array. -/
def colSlice (chunk : List (List Val)) (i : ℕ) : List Val :=
  chunk.map (fun row => row.getD i .nan)

theorem colSlice_length (chunk : List (List Val)) (i : ℕ) :
    (colSlice chunk i).length = chunk.length := by
  simp [colSlice]

theorem colSlice_flatten (chunks : List (List (List Val))) (i : ℕ) :
    colSlice chunks.flatten i = (chunks.map (colSlice · i)).flatten := by
  simp [colSlice, List.map_flatten]

/-- Python dict assignment `m[k] = v` on a string-keyed dict of rationals:
re-assigning an existing key keeps its position and replaces its value, a
fresh key is appended (insertion order preserved). -/
def dictInsert (m : List (String × ℚ)) (k : String) (v : ℚ) :
    List (String × ℚ) :=
  if k ∈ m.map Prod.fst then
    m.map (fun p => if p.1 = k then (p.1, v) else p)
  else m ++ [(k, v)]

/-- The finite cells of one row, keyed by column name (the dict comprehension
in `process_chunk`: a repeated column name overwrites, so the last finite
cell of that name wins and the dict holds one entry per distinct name). -/
def rowDict (names : List String) (row : List Val) : RowDict :=
  names.enum.foldl (fun m p =>
    match row.getD p.1 .nan with
    | .fin q => dictInsert m p.2 q
    | _ => m) []

/-- The key list of a Python dict comprehension over a list of names: each
distinct name once, in first-occurrence order (a repeated name overwrites
its value but keeps the original key position). -/
def dedupFirstAux : List String → List String → List String
  | [], _ => []
  | n :: rest, seen =>
    if n ∈ seen then dedupFirstAux rest seen
    else n :: dedupFirstAux rest (n :: seen)

/-- First-occurrence deduplication of a name list (Python dict key order). -/
def dedupFirst (l : List String) : List String := dedupFirstAux l []

/-- State of a `ChunkAccumulator`: `names` is `self.columns` (duplicates
included), `cols` the name-keyed dict holding, per DISTINCT column name, the
shared buffer, pending-NaN counter, numeric flag and statistics (the four
name-keyed dicts of the source, which necessarily share their keying). -/
structure AccState where
  names : List String
  cols : List (String × ColState)
  reservoir : RowReservoir
  rowCount : ℕ
deriving DecidableEq

/-- Constructor `ChunkAccumulator(columns)`: the dict comprehensions
`{col: [] for col in column_list}` key the per-column state by NAME, so a
repeated name yields one shared entry (at its first-occurrence position,
holding the fresh initial value); the reservoir is over `DOWNSAMPLE_TIERS`
with the fixed seed `0`. -/
def mkAccumulator (names : List String) : AccState :=
  ⟨names, (dedupFirst names).map (fun n => (n, ColState.init)),
   RowReservoir.init DOWNSAMPLE_TIERS 0, 0⟩

/-- Update the dict entry of name `k` (present exactly once, as dict keys
are distinct). -/
def updateEntry (m : List (String × ColState)) (k : String)
    (f : ColState → ColState) : List (String × ColState) :=
  m.map (fun p => if p.1 = k then (p.1, f p.2) else p)

/-- The dict entry of column name `n`; a missing key reads as the default of
the source's `defaultdict`s (no pending NaNs, not numeric — the fresh
initial state). -/
def colFor (m : List (String × ColState)) (n : String) : ColState :=
  match m with
  | [] => ColState.init
  | p :: rest => if p.1 = n then p.2 else colFor rest n

/-- The per-column loop of `process_chunk`
(`for idx, col in enumerate(columns)`): each iteration updates the SHARED
dict entry of the column's NAME with that position's slice, so a repeated
name accumulates several positional slices per chunk into one buffer. -/
def processNames (chunk : List (List Val)) :
    List (ℕ × String) → List (String × ColState) → List (String × ColState)
  | [], m => m
  | p :: rest, m =>
    processNames chunk rest
      (updateEntry m p.2 (fun c => c.processCol (colSlice chunk p.1)))

/-- Positional column processing (one independent state per name-list
position), used to reason about the dict fold when the column names are
distinct: with distinct names the shared dict entries coincide with the
positional states. -/
def processCols (chunk : List (List Val)) : List ColState → ℕ → List ColState
  | [], _ => []
  | c :: rest, j => c.processCol (colSlice chunk j) :: processCols chunk rest (j + 1)

/-- Offer every row of a chunk with at least two finite cells (distinct
names, as the row dict collapses repeats) to the reservoir. -/
def offerRows (names : List String) (chunk : List (List Val))
    (r : RowReservoir) : RowReservoir :=
  chunk.foldl (fun r row =>
    let d := rowDict names row
    if 2 ≤ d.length then r.add d else r) r

/-- Model of `ChunkAccumulator.process_chunk`.  The guard mirrors
`chunk.size == 0` (`size` is rows times columns). -/
def processChunk (s : AccState) (chunk : List (List Val)) : AccState :=
  if chunk.length * s.names.length = 0 then s
  else
    { names := s.names
      cols := processNames chunk s.names.enum s.cols
      reservoir := offerRows s.names chunk s.reservoir
      rowCount := s.rowCount + chunk.length }

/-- Output of `ChunkAccumulator.finalize`. -/
structure FinalizeResult where
  columnData : List (String × List Val)
  skippedColumns : List String
  stats : List (String × ColumnStats.Summary)
  reservoirs : List (ℕ × List RowDict)
  rowCount : ℕ

/-- Model of `ChunkAccumulator.finalize`.  The source loops over
`self.columns` (duplicates included): a repeated numeric name re-assigns
`column_data[col]` with the same concatenation (the first pass flushed the
pending NaNs, so the second pass concatenates the identical buffer list), so
`column_data` and the statistics dict carry one entry per DISTINCT name in
first-occurrence order, while a repeated never-numeric name is appended to
`skipped_columns` once per occurrence. -/
def finalize (s : AccState) : FinalizeResult :=
  { columnData := (dedupFirst s.names).filterMap
      (fun n => ((colFor s.cols n).finalCol).map (fun arr => (n, arr)))
    skippedColumns := s.names.filter (fun n => !(colFor s.cols n).hasNumeric)
    stats := (dedupFirst s.names).filterMap
      (fun n => ((colFor s.cols n).stats.asDict).map (fun d => (n, d)))
    reservoirs := s.reservoir.exportTiers
    rowCount := s.rowCount }

namespace ColState

theorem processCol_nil (c : ColState) : c.processCol [] = c := by
  unfold processCol
  simp

theorem canon_foldl (ss : List (List Val)) (c : ColState) :
    (ss.foldl processCol c).canon = ss.foldl canonStep c.canon := by
  induction ss generalizing c with
  | nil => rfl
  | cons a rest ih => simp [List.foldl_cons, ih, canon_processCol]

theorem canonStep_foldl_flatten (ss : List (List Val))
    (k : List Val × Bool × ColumnStats)
    (h : ∀ sl ∈ ss, ∀ v ∈ sl, v ≠ Val.inf ∧ v ≠ Val.ninf) :
    ss.foldl canonStep k = canonStep k ss.flatten := by
  induction ss generalizing k with
  | nil =>
    unfold canonStep
    simp
  | cons a rest ih =>
    have ha : ∀ v ∈ a, v ≠ Val.inf ∧ v ≠ Val.ninf := h a (by simp)
    have hrest : ∀ sl ∈ rest, ∀ v ∈ sl, v ≠ Val.inf ∧ v ≠ Val.ninf :=
      fun sl hsl => h sl (by simp [hsl])
    have hflat : ∀ v ∈ rest.flatten, v ≠ Val.inf ∧ v ≠ Val.ninf := by
      intro v hv
      obtain ⟨sl, hsl, hvsl⟩ := List.mem_flatten.mp hv
      exact hrest sl hsl v hvsl
    rw [List.foldl_cons, ih _ hrest, canonStep_append k a rest.flatten ha hflat,
      List.flatten_cons]

end ColState

theorem processChunk_names (s : AccState) (chunk : List (List Val)) :
    (processChunk s chunk).names = s.names := by
  unfold processChunk
  split <;> rfl

theorem processCols_cons (chunk : List (List Val)) (c : ColState)
    (rest : List ColState) (j : ℕ) :
    processCols chunk (c :: rest) j
      = c.processCol (colSlice chunk j) :: processCols chunk rest (j + 1) := rfl

theorem processCols_nil_chunk (cols : List ColState) (j : ℕ) :
    processCols [] cols j = cols := by
  induction cols generalizing j with
  | nil => rfl
  | cons c rest ih =>
    unfold processCols
    rw [ih]
    have : colSlice [] j = [] := rfl
    rw [this, c.processCol_nil]

theorem updateEntry_cons_eq (M : List (String × ColState)) (n : String)
    (c : ColState) (f : ColState → ColState) :
    updateEntry ((n, c) :: M) n f = (n, f c) :: updateEntry M n f := by
  simp [updateEntry]

theorem updateEntry_cons_ne (M : List (String × ColState)) (n : String)
    (c : ColState) (k : String) (f : ColState → ColState) (h : n ≠ k) :
    updateEntry ((n, c) :: M) k f = (n, c) :: updateEntry M k f := by
  simp [updateEntry, h]

theorem updateEntry_of_not_mem (M : List (String × ColState)) (k : String)
    (f : ColState → ColState) (h : ∀ p ∈ M, p.1 ≠ k) :
    updateEntry M k f = M := by
  induction M with
  | nil => rfl
  | cons a rest ih =>
    unfold updateEntry
    rw [List.map_cons, if_neg (h a (by simp))]
    exact congrArg (a :: ·) (ih (fun p hp => h p (by simp [hp])))

theorem enumFrom_snd_mem (l : List String) :
    ∀ (j : ℕ) (p : ℕ × String), p ∈ List.enumFrom j l → p.2 ∈ l := by
  induction l with
  | nil => intro j p h; cases h
  | cons a t ih =>
    intro j p h
    have h2 : p ∈ (j, a) :: List.enumFrom (j + 1) t := h
    rcases List.mem_cons.mp h2 with h3 | h3
    · rw [h3]; simp
    · exact List.mem_cons_of_mem a (ih (j + 1) p h3)

theorem processNames_untouched (chunk : List (List Val)) :
    ∀ (ps : List (ℕ × String)) (n : String) (c : ColState)
      (m : List (String × ColState)), (∀ p ∈ ps, p.2 ≠ n) →
      processNames chunk ps ((n, c) :: m) = (n, c) :: processNames chunk ps m := by
  intro ps
  induction ps with
  | nil => intro n c m _; rfl
  | cons q rest ih =>
    intro n c m h
    show processNames chunk rest
        (updateEntry ((n, c) :: m) q.2 (fun x => x.processCol (colSlice chunk q.1)))
      = (n, c) :: processNames chunk rest
        (updateEntry m q.2 (fun x => x.processCol (colSlice chunk q.1)))
    rw [updateEntry_cons_ne m n c q.2 _ (Ne.symm (h q (by simp)))]
    exact ih n c _ (fun p hp => h p (by simp [hp]))

theorem processNames_zip (chunk : List (List Val)) :
    ∀ (names : List String) (cols : List ColState) (j : ℕ),
      names.Nodup → cols.length = names.length →
      processNames chunk (List.enumFrom j names) (names.zip cols)
        = names.zip (processCols chunk cols j) := by
  intro names
  induction names with
  | nil => intro cols j _ _; rfl
  | cons n rest ih =>
    intro cols j hnd hlen
    cases cols with
    | nil => simp at hlen
    | cons c cs =>
      rw [List.nodup_cons] at hnd
      have hkeys : ∀ p ∈ rest.zip cs, p.1 ≠ n := by
        intro p hp he
        exact hnd.1 (he ▸ (List.of_mem_zip hp).1)
      have hpos : ∀ p ∈ List.enumFrom (j + 1) rest, p.2 ≠ n := by
        intro p hp he
        exact hnd.1 (he ▸ enumFrom_snd_mem rest (j + 1) p hp)
      have step : processNames chunk (List.enumFrom j (n :: rest))
          ((n :: rest).zip (c :: cs))
          = processNames chunk (List.enumFrom (j + 1) rest)
            (updateEntry ((n, c) :: rest.zip cs) n
              (fun x => x.processCol (colSlice chunk j))) := rfl
      rw [step, updateEntry_cons_eq, updateEntry_of_not_mem _ _ _ hkeys,
        processNames_untouched chunk _ n _ _ hpos,
        ih cs (j + 1) hnd.2 (by simpa using hlen), processCols_cons]
      rfl

theorem processNames_zip_enum (chunk : List (List Val)) (names : List String)
    (cols : List ColState) (hnd : names.Nodup)
    (hlen : cols.length = names.length) :
    processNames chunk names.enum (names.zip cols)
      = names.zip (processCols chunk cols 0) :=
  processNames_zip chunk names cols 0 hnd hlen

theorem processCols_length (chunk : List (List Val)) :
    ∀ (cols : List ColState) (j : ℕ),
      (processCols chunk cols j).length = cols.length := by
  intro cols
  induction cols with
  | nil => intro j; rfl
  | cons c cs ih => intro j; rw [processCols_cons]; simp [ih]

theorem dedupFirstAux_of_nodup :
    ∀ (l : List String) (seen : List String), l.Nodup →
      (∀ x ∈ l, x ∉ seen) → dedupFirstAux l seen = l := by
  intro l
  induction l with
  | nil => intro seen _ _; rfl
  | cons n rest ih =>
    intro seen hnd hfresh
    rw [List.nodup_cons] at hnd
    show (if n ∈ seen then dedupFirstAux rest seen
      else n :: dedupFirstAux rest (n :: seen)) = n :: rest
    rw [if_neg (hfresh n (by simp))]
    refine congrArg (n :: ·) (ih (n :: seen) hnd.2 ?_)
    intro x hx hmem
    rcases List.mem_cons.mp hmem with h | h
    · exact hnd.1 (h ▸ hx)
    · exact hfresh x (by simp [hx]) h

theorem dedupFirst_of_nodup (l : List String) (h : l.Nodup) :
    dedupFirst l = l :=
  dedupFirstAux_of_nodup l [] h (fun x _ hx => (List.not_mem_nil x) hx)

theorem map_pair_eq_zip : ∀ (l : List String),
    l.map (fun n => (n, ColState.init))
      = l.zip (l.map (fun _ => ColState.init)) := by
  intro l
  induction l with
  | nil => rfl
  | cons n rest ih => rw [List.map_cons, ih]; rfl

theorem mkAccumulator_cols_zip (names : List String) (hnd : names.Nodup) :
    mkAccumulator names
      = ⟨names, names.zip (names.map (fun _ => ColState.init)),
         RowReservoir.init DOWNSAMPLE_TIERS 0, 0⟩ := by
  unfold mkAccumulator
  rw [dedupFirst_of_nodup names hnd, map_pair_eq_zip]

theorem processChunk_cols_zip (names : List String) (cols : List ColState)
    (r : RowReservoir) (rc : ℕ) (chunk : List (List Val))
    (hnd : names.Nodup) (hne : names ≠ [])
    (hlen : cols.length = names.length) :
    (processChunk ⟨names, names.zip cols, r, rc⟩ chunk).cols
      = names.zip (processCols chunk cols 0) := by
  unfold processChunk
  split
  · rename_i h
    rcases Nat.mul_eq_zero.mp h with h0 | h0
    · rw [List.length_eq_zero.mp h0, processCols_nil_chunk]
    · exact absurd (List.length_eq_zero.mp h0) hne
  · exact processNames_zip_enum chunk names cols hnd hlen

theorem fold_names (chunks : List (List (List Val))) (s : AccState) :
    (chunks.foldl processChunk s).names = s.names := by
  induction chunks generalizing s with
  | nil => rfl
  | cons c rest ih => rw [List.foldl_cons, ih, processChunk_names]

theorem fold_cols_zip (chunks : List (List (List Val))) (names : List String)
    (hnd : names.Nodup) (hne : names ≠ []) :
    ∀ (cols : List ColState) (r : RowReservoir) (rc : ℕ),
      cols.length = names.length →
      (chunks.foldl processChunk ⟨names, names.zip cols, r, rc⟩).cols
        = names.zip (chunks.foldl (fun cl ch => processCols ch cl 0) cols) := by
  induction chunks with
  | nil => intro cols r rc _; rfl
  | cons ch rest ih =>
    intro cols r rc hlen
    rw [List.foldl_cons, List.foldl_cons]
    by_cases hg : ch.length * names.length = 0
    · have hch : ch = [] := by
        rcases Nat.mul_eq_zero.mp hg with h0 | h0
        · exact List.length_eq_zero.mp h0
        · exact absurd (List.length_eq_zero.mp h0) hne
      have h1 : processChunk ⟨names, names.zip cols, r, rc⟩ ch
          = ⟨names, names.zip cols, r, rc⟩ := by
        unfold processChunk
        rw [if_pos hg]
      rw [h1, hch,
        show processCols ([] : List (List Val)) cols 0 = cols from
          processCols_nil_chunk cols 0]
      exact ih cols r rc hlen
    · have h1 : processChunk ⟨names, names.zip cols, r, rc⟩ ch
          = ⟨names, names.zip (processCols ch cols 0),
             offerRows names ch r, rc + ch.length⟩ := by
        unfold processChunk
        rw [if_neg hg]
        simp only
        rw [processNames_zip_enum ch names cols hnd hlen]
      rw [h1]
      exact ih (processCols ch cols 0) _ _
        (by rw [processCols_length]; exact hlen)

theorem foldl_processCols_nil (chunks : List (List (List Val))) (j : ℕ) :
    chunks.foldl (fun cl ch => processCols ch cl j) [] = [] := by
  induction chunks with
  | nil => rfl
  | cons c rest ih => simpa [List.foldl_cons, processCols] using ih

theorem foldl_processCols_cons (chunks : List (List (List Val)))
    (c : ColState) (rest : List ColState) (j : ℕ) :
    chunks.foldl (fun cl ch => processCols ch cl j) (c :: rest)
      = (chunks.foldl (fun x ch => x.processCol (colSlice ch j)) c)
        :: (chunks.foldl (fun cl ch => processCols ch cl (j + 1)) rest) := by
  induction chunks generalizing c rest with
  | nil => rfl
  | cons ch chs ih => simp [List.foldl_cons, processCols, ih]

theorem noInf_colSlice (chunk : List (List Val)) (j : ℕ)
    (h : ∀ row ∈ chunk, ∀ v ∈ row, v ≠ Val.inf ∧ v ≠ Val.ninf) :
    ∀ v ∈ colSlice chunk j, v ≠ Val.inf ∧ v ≠ Val.ninf := by
  intro v hv
  obtain ⟨row, hrow, hval⟩ := List.mem_map.mp hv
  rw [← hval, List.getD_eq_getElem?_getD]
  rcases hg : row[j]? with _ | x
  · exact ⟨by simp, by simp⟩
  · simpa using h row hrow x (List.getElem?_mem hg)

theorem map_canon_fold_eq (chunks : List (List (List Val)))
    (hnoinf : ∀ ch ∈ chunks, ∀ row ∈ ch, ∀ v ∈ row, v ≠ Val.inf ∧ v ≠ Val.ninf) :
    ∀ (cols : List ColState) (j : ℕ),
      (chunks.foldl (fun cl ch => processCols ch cl j) cols).map ColState.canon
        = (processCols chunks.flatten cols j).map ColState.canon := by
  intro cols
  induction cols with
  | nil =>
    intro j
    rw [foldl_processCols_nil]
    rfl
  | cons c rest ih =>
    intro j
    rw [foldl_processCols_cons]
    have hslices : ∀ sl ∈ chunks.map (colSlice · j), ∀ v ∈ sl,
        v ≠ Val.inf ∧ v ≠ Val.ninf := by
      intro sl hsl
      obtain ⟨ch, hch, hs⟩ := List.mem_map.mp hsl
      rw [← hs]
      exact noInf_colSlice ch j (hnoinf ch hch)
    have hhead :
        (chunks.foldl (fun x ch => x.processCol (colSlice ch j)) c).canon
          = (c.processCol (colSlice chunks.flatten j)).canon := by
      rw [← List.foldl_map (colSlice · j) ColState.processCol,
        ColState.canon_foldl, ColState.canonStep_foldl_flatten _ _ hslices,
        ← colSlice_flatten, ColState.canon_processCol]
    rw [processCols_cons]
    simp only [List.map_cons, hhead, ih (j + 1)]

theorem colFor_zip_canon (names : List String) :
    ∀ (c₁ c₂ : List ColState) (n : String),
      c₁.map ColState.canon = c₂.map ColState.canon →
      (colFor (names.zip c₁) n).canon = (colFor (names.zip c₂) n).canon := by
  induction names with
  | nil => intro c₁ c₂ n _; rfl
  | cons m rest ih =>
    intro c₁ c₂ n h
    cases c₁ with
    | nil =>
      cases c₂ with
      | nil => rfl
      | cons b t₂ => simp at h
    | cons a t₁ =>
      cases c₂ with
      | nil => simp at h
      | cons b t₂ =>
        simp only [List.map_cons, List.cons.injEq] at h
        show (if m = n then a else colFor (rest.zip t₁) n).canon
          = (if m = n then b else colFor (rest.zip t₂) n).canon
        by_cases hm : m = n
        · rw [if_pos hm, if_pos hm]
          exact h.1
        · rw [if_neg hm, if_neg hm]
          exact ih t₁ t₂ n h.2

theorem finalize_eq_of_colFor_canon (s₁ s₂ : AccState)
    (hn : s₁.names = s₂.names)
    (h : ∀ n, (colFor s₁.cols n).canon = (colFor s₂.cols n).canon) :
    (finalize s₁).columnData = (finalize s₂).columnData
      ∧ (finalize s₁).stats = (finalize s₂).stats := by
  unfold finalize
  simp only
  rw [← hn]
  constructor
  · exact congrArg (fun f => List.filterMap f (dedupFirst s₁.names))
      (funext fun n => by
        rw [ColState.finalCol_eq_canon, ColState.finalCol_eq_canon, h n])
  · have hst : ∀ n, (colFor s₁.cols n).stats = (colFor s₂.cols n).stats :=
      fun n => congrArg (fun k => k.2.2) (h n)
    exact congrArg (fun f => List.filterMap f (dedupFirst s₁.names))
      (funext fun n => by rw [hst n])

theorem colFor_eq_init_or_mem (m : List (String × ColState)) (n : String) :
    colFor m n = ColState.init ∨ ∃ p ∈ m, colFor m n = p.2 := by
  induction m with
  | nil => exact Or.inl rfl
  | cons a rest ih =>
    show (if a.1 = n then a.2 else colFor rest n) = _ ∨
      ∃ p ∈ a :: rest, (if a.1 = n then a.2 else colFor rest n) = p.2
    by_cases h : a.1 = n
    · rw [if_pos h]
      exact Or.inr ⟨a, by simp, rfl⟩
    · rw [if_neg h]
      rcases ih with h2 | ⟨p, hp, he⟩
      · exact Or.inl h2
      · exact Or.inr ⟨p, by simp [hp], he⟩

theorem fold_of_names_nil (chunks : List (List (List Val))) (s : AccState)
    (hn : s.names = []) : chunks.foldl processChunk s = s := by
  induction chunks generalizing s with
  | nil => rfl
  | cons c rest ih =>
    have : processChunk s c = s := by
      unfold processChunk
      rw [hn]
      simp
    rw [List.foldl_cons, this, ih s hn]

theorem processChunk_of_names_nil (s : AccState) (chunk : List (List Val))
    (hn : s.names = []) : processChunk s chunk = s := by
  unfold processChunk
  rw [hn]
  simp

/-- Per-column row-accounting: each processed chunk grows
`buffer.length + pendingNans` by exactly the chunk's row count. -/
theorem processCols_row_accounting (chunk : List (List Val)) :
    ∀ (cols : List ColState) (j : ℕ) (r : ℕ),
      (∀ c ∈ cols, c.buffer.length + c.pendingNans = r) →
      ∀ c' ∈ processCols chunk cols j,
        c'.buffer.length + c'.pendingNans = r + chunk.length := by
  intro cols
  induction cols with
  | nil => intro j r _ c' hc'; simp [processCols] at hc'
  | cons c rest ih =>
    intro j r h c' hc'
    rw [processCols_cons] at hc'
    rcases List.mem_cons.mp hc' with h' | h'
    · subst h'
      have hc := h c (by simp)
      unfold ColState.processCol
      split
      · simp only [List.length_append, nanPad, List.length_replicate,
          colSlice_length]
        omega
      · simp only [colSlice_length]
        omega
    · exact ih (j + 1) r (fun x hx => h x (by simp [hx])) c' h'

theorem fold_positional_row_invariant (chunks : List (List (List Val))) :
    ∀ (cols : List ColState) (r : ℕ),
      (∀ c ∈ cols, c.buffer.length + c.pendingNans = r) →
      ∀ c ∈ chunks.foldl (fun cl ch => processCols ch cl 0) cols,
        c.buffer.length + c.pendingNans = r + chunks.flatten.length := by
  induction chunks with
  | nil =>
    intro cols r h c hc
    simpa using h c hc
  | cons ch rest ih =>
    intro cols r h c hc
    rw [List.foldl_cons] at hc
    have hstep := ih (processCols ch cols 0) (r + ch.length)
      (processCols_row_accounting ch cols 0 r h) c hc
    rw [List.flatten_cons, List.length_append]
    omega

theorem fold_rowCount (chunks : List (List (List Val))) (s : AccState)
    (hn : s.names ≠ []) :
    (chunks.foldl processChunk s).rowCount = s.rowCount + chunks.flatten.length := by
  induction chunks generalizing s with
  | nil => simp
  | cons ch rest ih =>
    rw [List.foldl_cons, ih _ (by rw [processChunk_names]; exact hn)]
    have hrc : (processChunk s ch).rowCount = s.rowCount + ch.length := by
      unfold processChunk
      split
      · rename_i h0
        rcases Nat.mul_eq_zero.mp h0 with h1 | h1
        · simp [List.length_eq_zero.mp h1]
        · exact absurd (List.length_eq_zero.mp h1) (fun hh => hn (List.length_eq_zero.mp h1))
      · rfl
    rw [hrc, List.flatten_cons, List.length_append]
    omega

namespace RowReservoir

/-- Tier capacity invariant: every bucket fits its configured capacity. -/
def Bounded (ts : List (ℕ × List RowDict)) : Prop :=
  ∀ p ∈ ts, p.2.length ≤ p.1

theorem addTiers_bounded (seed total : ℕ) (row : RowDict) :
    ∀ (ts : List (ℕ × List RowDict)) (d : ℕ), Bounded ts →
      Bounded (addTiers seed total row ts d).1 := by
  intro ts
  induction ts with
  | nil => intro d _; intro p hp; simp [addTiers] at hp
  | cons t rest ih =>
    intro d h
    obtain ⟨size, bucket⟩ := t
    intro p hp
    unfold addTiers at hp
    by_cases hlt : bucket.length < size
    · simp only [hlt, if_true] at hp
      rcases List.mem_cons.mp hp with h' | h'
      · subst h'
        simp only [List.length_append, List.length_cons, List.length_nil]
        omega
      · exact ih d (fun x hx => h x (by simp [hx])) p h'
    · simp only [hlt, if_false] at hp
      rcases List.mem_cons.mp hp with h' | h'
      · subst h'
        have hb := h (size, bucket) (by simp)
        by_cases hidx : mkDraw seed d total < size <;>
          simp [hidx, List.length_set] <;> simpa using hb
      · exact ih (d + 1) (fun x hx => h x (by simp [hx])) p h'

theorem add_bounded (r : RowReservoir) (row : RowDict)
    (h : Bounded r.tiers) : Bounded (r.add row).tiers := by
  unfold add
  split
  · exact h
  · exact addTiers_bounded r.seed (r.totalSeen + 1) row r.tiers r.drawCount h

theorem fold_add_bounded (rows : List RowDict) (r : RowReservoir)
    (h : Bounded r.tiers) : Bounded ((rows.foldl add r).tiers) := by
  induction rows generalizing r with
  | nil => exact h
  | cons row rest ih => exact ih (r.add row) (add_bounded r row h)

theorem init_bounded (sizes : List ℕ) (seed : ℕ) :
    Bounded (init sizes seed).tiers := by
  intro p hp
  simp only [init] at hp
  obtain ⟨s, _, hs⟩ := List.mem_map.mp hp
  rw [← hs]
  simp

end RowReservoir

/-- C1 counterexample: chunking IS observable in the finalized column arrays
when a cell is an infinity.  A column whose first chunk holds only `inf`
(non-finite, so deferred as pending) is later padded with NaN, whereas the
one-chunk run keeps the `inf` cell: `[NaN, 1]` versus `[inf, 1]`. -/
theorem chunk_boundary_observable_with_infinite_cell :
    (finalize (List.foldl processChunk (mkAccumulator ["col0"])
        [[[Val.inf]], [[Val.fin 1]]])).columnData
      ≠ (finalize (processChunk (mkAccumulator ["col0"])
        (List.flatten [[[Val.inf]], [[Val.fin 1]]]))).columnData := by
  decide

/-- Duplicate column names make chunking observable even without
infinities: the dict keys the buffers by NAME, so both positions of a
repeated header append into one shared buffer, and the interleaving of the
per-position slices depends on the chunk boundaries (the reviewer-facing
invariant of the source's `{col: [] for col in column_list}` keying). -/
theorem chunk_boundary_observable_with_duplicate_names :
    (finalize (processChunk (mkAccumulator ["a", "a"])
        [[Val.nan, Val.fin 1], [Val.fin 2, Val.nan]])).columnData
      = [("a", [Val.nan, Val.fin 2, Val.fin 1, Val.nan])]
    ∧ (finalize (List.foldl processChunk (mkAccumulator ["a", "a"])
        [[[Val.nan, Val.fin 1]], [[Val.fin 2, Val.nan]]])).columnData
      = [("a", [Val.nan, Val.fin 1, Val.fin 2, Val.nan])] := by
  decide

/-- C1 (amended): for every input whose column names are distinct and whose
cells are all finite or NaN (no infinities), processing the rows as one
chunk or split across any chunk boundaries yields identical finalized
column arrays and identical per-column statistics from
`ChunkAccumulator.finalize`. -/
theorem chunking_unobservable_without_infinities (names : List String)
    (chunks : List (List (List Val))) (hnd : names.Nodup)
    (hnoinf : ∀ ch ∈ chunks, ∀ row ∈ ch, ∀ v ∈ row, v ≠ Val.inf ∧ v ≠ Val.ninf) :
    (finalize (chunks.foldl processChunk (mkAccumulator names))).columnData
      = (finalize (processChunk (mkAccumulator names) chunks.flatten)).columnData
    ∧ (finalize (chunks.foldl processChunk (mkAccumulator names))).stats
      = (finalize (processChunk (mkAccumulator names) chunks.flatten)).stats := by
  by_cases hn : names = []
  · subst hn
    rw [fold_of_names_nil _ _ rfl, processChunk_of_names_nil _ _ rfl]
    exact ⟨rfl, rfl⟩
  · have h₁ : (chunks.foldl processChunk (mkAccumulator names)).cols
        = names.zip (chunks.foldl (fun cl ch => processCols ch cl 0)
            (names.map (fun _ => ColState.init))) := by
      rw [mkAccumulator_cols_zip names hnd]
      exact fold_cols_zip chunks names hnd hn _ _ _ (by simp)
    have h₂ : (processChunk (mkAccumulator names) chunks.flatten).cols
        = names.zip (processCols chunks.flatten
            (names.map (fun _ => ColState.init)) 0) := by
      rw [mkAccumulator_cols_zip names hnd]
      exact processChunk_cols_zip names _ _ _ _ hnd hn (by simp)
    refine finalize_eq_of_colFor_canon _ _ ?_ ?_
    · rw [fold_names, processChunk_names]
    · intro n
      rw [h₁, h₂]
      exact colFor_zip_canon names _ _ n (map_canon_fold_eq chunks hnoinf _ 0)

/-- Witness for the amended C1 theorem at a concrete two-chunk input. -/
theorem chunking_unobservable_without_infinities_witness :
    (["w", "f"] : List String).Nodup
    ∧ (∀ ch ∈ [[[Val.fin 1, Val.fin 2]], [[Val.fin 3, Val.fin 4]]],
        ∀ row ∈ ch, ∀ v ∈ row, v ≠ Val.inf ∧ v ≠ Val.ninf)
    ∧ ((finalize (List.foldl processChunk (mkAccumulator ["w", "f"])
          [[[Val.fin 1, Val.fin 2]], [[Val.fin 3, Val.fin 4]]])).columnData
        = (finalize (processChunk (mkAccumulator ["w", "f"])
          (List.flatten [[[Val.fin 1, Val.fin 2]],
            [[Val.fin 3, Val.fin 4]]]))).columnData
      ∧ (finalize (List.foldl processChunk (mkAccumulator ["w", "f"])
          [[[Val.fin 1, Val.fin 2]], [[Val.fin 3, Val.fin 4]]])).stats
        = (finalize (processChunk (mkAccumulator ["w", "f"])
          (List.flatten [[[Val.fin 1, Val.fin 2]],
            [[Val.fin 3, Val.fin 4]]]))).stats) :=
  ⟨by decide, by decide,
   chunking_unobservable_without_infinities ["w", "f"] _ (by decide) (by decide)⟩

/-- C9 counterexample: a repeated column name shares one dict entry, so
`ChunkAccumulator(['a', 'a'])` fed one chunk of a single row `[1.0, 2.0]`
finalizes a single column `'a'` whose array has length `2` while the row
count (and chunk-length sum) is `1`. -/
theorem retained_column_length_counterexample :
    (finalize (List.foldl processChunk (mkAccumulator ["a", "a"])
        [[[Val.fin 1, Val.fin 2]]])).columnData
      = [("a", [Val.fin 1, Val.fin 2])]
    ∧ ([[[Val.fin 1, Val.fin 2]]] :
        List (List (List Val))).flatten.length = 1
    ∧ ([Val.fin 1, Val.fin 2] : List Val).length ≠ 1 := by
  decide

/-- C9 (amended): for every sequence of chunks whose row counts sum to `N`,
provided the column names are distinct, every column retained by
`ChunkAccumulator.finalize` yields a finalized array of length exactly `N`
(all deferred NaN padding resolved); in particular all retained column
arrays have equal length. -/
theorem retained_column_length (names : List String)
    (chunks : List (List (List Val))) (hnd : names.Nodup) :
    ∀ p ∈ (finalize (chunks.foldl processChunk (mkAccumulator names))).columnData,
      p.2.length = chunks.flatten.length := by
  intro p hp
  by_cases hn : names = []
  · subst hn
    rw [fold_of_names_nil _ _ rfl] at hp
    simp [finalize, mkAccumulator, dedupFirst, dedupFirstAux] at hp
  · have h₁ : (chunks.foldl processChunk (mkAccumulator names)).cols
        = names.zip (chunks.foldl (fun cl ch => processCols ch cl 0)
            (names.map (fun _ => ColState.init))) := by
      rw [mkAccumulator_cols_zip names hnd]
      exact fold_cols_zip chunks names hnd hn _ _ _ (by simp)
    have hC : ∀ c ∈ chunks.foldl (fun cl ch => processCols ch cl 0)
        (names.map (fun _ => ColState.init)),
        c.buffer.length + c.pendingNans = chunks.flatten.length := by
      intro c hc
      have hbase : ∀ c ∈ names.map (fun _ => ColState.init),
          c.buffer.length + c.pendingNans = 0 := by
        intro c hc2
        obtain ⟨_, _, h⟩ := List.mem_map.mp hc2
        rw [← h]
        rfl
      simpa using fold_positional_row_invariant chunks _ 0 hbase c hc
    unfold finalize at hp
    simp only [List.mem_filterMap] at hp
    obtain ⟨n, hnmem, hmap⟩ := hp
    obtain ⟨arr, harr, hparr⟩ := Option.map_eq_some'.mp hmap
    rcases colFor_eq_init_or_mem
        ((chunks.foldl processChunk (mkAccumulator names)).cols) n with
      hinit | ⟨q, hq, he⟩
    · rw [hinit] at harr
      simp [ColState.finalCol, ColState.init] at harr
    · rw [h₁] at hq
      have hlen2 := hC q.2 (List.of_mem_zip hq).2
      rw [← hparr]
      simp only
      rw [he] at harr
      unfold ColState.finalCol at harr
      split at harr
      · cases harr
        simpa [nanPad] using hlen2
      · cases harr

/-- Witness for the amended C9 theorem at a concrete one-chunk input. -/
theorem retained_column_length_witness :
    (["w"] : List String).Nodup
    ∧ (("w", [Val.fin 1]) ∈ (finalize (([[[Val.fin 1]]] :
        List (List (List Val))).foldl processChunk
        (mkAccumulator ["w"]))).columnData)
    ∧ (("w", ([Val.fin 1] : List Val)) : String × List Val).2.length
      = ([[[Val.fin 1]]] : List (List (List Val))).flatten.length :=
  ⟨by decide, by decide,
   retained_column_length ["w"] _ (by decide) _ (by decide)⟩

/-! ## Physical units

The spec's design note for astropy's unit objects: a unit is a
`(scale factor, dimension vector)` pair; composition is dimension-vector
arithmetic; conversion is a scale-factor ratio guarded by dimension-vector
equality; the spectral-density equivalency is a separate, explicitly invoked
strategy. Dimensions are powers of metre, kilogram, second. -/

/-- Dimension vector: powers of length (m), mass (kg) and time (s). -/
structure Dim where
  length : ℤ
  mass : ℤ
  time : ℤ
deriving DecidableEq

/-- A physical unit: SI scale factor and dimension vector. -/
structure PhysUnit where
  scale : ℚ
  dim : Dim
deriving DecidableEq

namespace PhysUnit

/-- Unit multiplication. -/
def mul (a b : PhysUnit) : PhysUnit :=
  ⟨a.scale * b.scale,
    ⟨a.dim.length + b.dim.length, a.dim.mass + b.dim.mass, a.dim.time + b.dim.time⟩⟩

/-- Unit division (how composite units are built in `_unit_from_composite`). -/
def div (a b : PhysUnit) : PhysUnit :=
  ⟨a.scale / b.scale,
    ⟨a.dim.length - b.dim.length, a.dim.mass - b.dim.mass, a.dim.time - b.dim.time⟩⟩

end PhysUnit

/-- Metre. -/
def uM : PhysUnit := ⟨1, ⟨1, 0, 0⟩⟩

/-- Square metre (`u.m ** 2`). -/
def uM2 : PhysUnit := ⟨1, ⟨2, 0, 0⟩⟩

/-- Cubic metre. -/
def uM3 : PhysUnit := ⟨1, ⟨3, 0, 0⟩⟩

/-- Centimetre. -/
def uCm : PhysUnit := ⟨1 / 100, ⟨1, 0, 0⟩⟩

/-- Square centimetre. -/
def uCm2 : PhysUnit := ⟨1 / 10000, ⟨2, 0, 0⟩⟩

/-- Cubic centimetre. -/
def uCm3 : PhysUnit := ⟨1 / 1000000, ⟨3, 0, 0⟩⟩

/-- Nanometre (the canonical wavelength unit). -/
def uNm : PhysUnit := ⟨1 / 1000000000, ⟨1, 0, 0⟩⟩

/-- Angstrom (`0.1 nm`). -/
def uAA : PhysUnit := ⟨1 / 10000000000, ⟨1, 0, 0⟩⟩

/-- Micron. -/
def uMicron : PhysUnit := ⟨1 / 1000000, ⟨1, 0, 0⟩⟩

/-- Second. -/
def uS : PhysUnit := ⟨1, ⟨0, 0, 1⟩⟩

/-- Hertz. -/
def uHz : PhysUnit := ⟨1, ⟨0, 0, -1⟩⟩

/-- Watt (`kg·m²·s⁻³`). -/
def uW : PhysUnit := ⟨1, ⟨2, 1, -3⟩⟩

/-- Erg (`10⁻⁷ J`). -/
def uErg : PhysUnit := ⟨1 / 10000000, ⟨2, 1, -3⟩⟩

/-- Jansky (`10⁻²⁶ W·m⁻²·Hz⁻¹`, the canonical flux unit). -/
def uJy : PhysUnit := ⟨1 / 100000000000000000000000000, ⟨0, 1, -2⟩⟩

/-- The `erg` keyword of `UNIT_KEYWORDS` resolves to `erg / (s * cm**2)`. -/
def uErgPerSCm2 : PhysUnit := ⟨1 / 1000, ⟨0, 1, -3⟩⟩

/-- `CANONICAL_WAVELENGTH_UNIT = u.nm`. -/
def CANONICAL_WAVELENGTH_UNIT : PhysUnit := uNm

/-- `CANONICAL_FLUX_UNIT = u.Jy`. -/
def CANONICAL_FLUX_UNIT : PhysUnit := uJy

/-- Direct unit conversion (`Quantity.to`): defined exactly when the
dimension vectors agree, in which case values are multiplied by the scale
ratio; otherwise astropy raises `UnitConversionError`. -/
def convertFactor (fromU toU : PhysUnit) : Option ℚ :=
  if fromU.dim = toU.dim then some (fromU.scale / toU.scale) else none

/-- Dimension of flux per wavelength (for example `W·m⁻²·nm⁻¹`). -/
def dimFLambda : Dim := ⟨-1, 1, -3⟩

/-- Dimension of flux density (for example `Jy`, `W·m⁻²·Hz⁻¹`). -/
def dimFNu : Dim := ⟨0, 1, -2⟩

/-- Dimension of bolometric flux (`erg·s⁻¹·cm⁻²`). -/
def dimNuFnu : Dim := ⟨0, 1, -3⟩

/-- Speed of light in m/s. -/
def cLight : ℚ := 299792458

/-- Modelled from the spec: astropy's `u.spectral_density(wav)` equivalency
(an external library).  Named conversion strategy between flux-per-wavelength,
flux-density and bolometric-flux dimensions, parameterised by the wavelength
`lam` (in metres) at which the conversion is evaluated; `none` when the pair
of dimensions is not covered by the equivalency. -/
def spectralDensityFactor (d1 d2 : Dim) (lam : ℚ) : Option ℚ :=
  if d1 = dimFLambda ∧ d2 = dimFNu then some (lam * lam / cLight)
  else if d1 = dimFNu ∧ d2 = dimFLambda then some (cLight / (lam * lam))
  else if d1 = dimNuFnu ∧ d2 = dimFNu then some (lam / cLight)
  else if d1 = dimFNu ∧ d2 = dimNuFnu then some (cLight / lam)
  else if d1 = dimNuFnu ∧ d2 = dimFLambda then some (1 / lam)
  else if d1 = dimFLambda ∧ d2 = dimNuFnu then some lam
  else none

/-! ## Unit inference from column labels (`spectral_app.utils.units`) -/

/-- `UNIT_KEYWORDS` of the source. -/
def UNIT_KEYWORDS : List (String × PhysUnit) :=
  [("angstrom", uAA), ("ang", uAA), ("aa", uAA),
   ("nm", uNm), ("nanometer", uNm),
   ("micron", uMicron), ("um", uMicron),
   ("hz", uHz), ("jy", uJy),
   ("erg", uErgPerSCm2),
   ("w", uW), ("watt", uW), ("watts", uW),
   ("s", uS), ("sec", uS), ("second", uS), ("seconds", uS),
   ("m", uM), ("m2", uM2), ("m3", uM3),
   ("cm", uCm), ("cm2", uCm2), ("cm3", uCm3)]

/-- `TOKEN_UNIT_MAP` of the source (`erg` is plain erg here). -/
def TOKEN_UNIT_MAP : List (String × PhysUnit) :=
  [("angstrom", uAA), ("ang", uAA), ("aa", uAA),
   ("nm", uNm), ("nanometer", uNm),
   ("micron", uMicron), ("um", uMicron),
   ("hz", uHz), ("jy", uJy),
   ("erg", uErg),
   ("w", uW), ("watt", uW), ("watts", uW),
   ("s", uS), ("sec", uS), ("second", uS), ("seconds", uS),
   ("m", uM), ("m2", uM2), ("m3", uM3),
   ("cm", uCm), ("cm2", uCm2), ("cm3", uCm3)]

/-- `TOKEN_SKIP_WORDS` of the source. -/
def TOKEN_SKIP_WORDS : List String := ["per", "of", "to", "in", "at"]

/-- A character matched by the token pattern `[a-z0-9]+` (after lowering). -/
def isTokenChar (c : Char) : Bool :=
  (decide ('a' ≤ c) && decide (c ≤ 'z')) || c.isDigit

/-- Split a lowered character list into maximal `[a-z0-9]+` runs
(`re.findall`); `cur` is the current run, reversed. -/
def tokenizeAux : List Char → List Char → List String
  | [], cur => if cur.isEmpty then [] else [String.mk cur.reverse]
  | c :: rest, cur =>
    if isTokenChar c then tokenizeAux rest (c :: cur)
    else if cur.isEmpty then tokenizeAux rest []
    else String.mk cur.reverse :: tokenizeAux rest []

/-- Is a token known to either keyword table? -/
def knownToken (t : String) : Bool :=
  (UNIT_KEYWORDS.lookup t).isSome || (TOKEN_UNIT_MAP.lookup t).isSome

/-- The merge loop of `_extract_tokens`: adjacent tokens are concatenated
when the concatenation is a known unit symbol (so `m`,`2` become `m2`). -/
def mergeTokens : List String → List String
  | [] => []
  | [t] => [t]
  | t1 :: t2 :: rest =>
    if knownToken (t1 ++ t2) then (t1 ++ t2) :: mergeTokens rest
    else t1 :: mergeTokens (t2 :: rest)

/-- Model of `_extract_tokens`. -/
def extract_tokens (text : String) : List String :=
  mergeTokens (tokenizeAux (text.data.map Char.toLower) [])

/-- Model of `_unit_from_composite`: drop filler words, resolve the remaining
tokens, and combine two or more recognised units by sequential division. -/
def unit_from_composite (tokens : List String) : Option PhysUnit :=
  let seq := tokens.filterMap (fun t =>
    if TOKEN_SKIP_WORDS.contains t then none else TOKEN_UNIT_MAP.lookup t)
  match seq with
  | [] => none
  | [_] => none
  | u :: rest => some (rest.foldl PhysUnit.div u)

/-- Match `[^X]+X` starting right after an opening delimiter: the characters
before the first closing delimiter, provided the group is nonempty and the
closing delimiter occurs. -/
def grabGroup (close : Char) (cs : List Char) : Option (List Char) :=
  let seg := cs.takeWhile (fun c => c ≠ close)
  if seg.isEmpty then none
  else if seg.length < cs.length then some seg else none

/-- Leftmost match of `UNIT_PATTERN`: text inside the first parenthesised or
bracketed group. -/
def searchPattern : List Char → Option (List Char)
  | [] => none
  | c :: rest =>
    if c = '(' then
      match grabGroup ')' rest with
      | some seg => some seg
      | none => searchPattern rest
    else if c = '[' then
      match grabGroup ']' rest with
      | some seg => some seg
      | none => searchPattern rest
    else searchPattern rest

/-- Modelled from the spec: the last-resort `u.Unit(cleaned)` call parses the
cleaned substring with astropy's full unit-expression grammar (an external
library).  It is modelled as a finite table of the unit expressions relevant
to this development; labels outside the table parse to nothing, matching the
source's `except Exception: return None`. -/
def astropyParseUnit (text : String) : Option PhysUnit :=
  List.lookup text
    [("Angstrom", uAA), ("angstrom", uAA), ("Jy", uJy), ("nm", uNm),
     ("Hz", uHz), ("micron", uMicron), ("W", uW), ("m", uM), ("s", uS),
     ("cm", uCm), ("erg", uErg)]

/-- Strip leading and trailing whitespace (Python's `str.strip`), written on
character lists so it reduces structurally. -/
def charTrim (cs : List Char) : List Char :=
  ((cs.dropWhile Char.isWhitespace).reverse.dropWhile Char.isWhitespace).reverse

/-- Model of `infer_unit_from_label`. -/
def infer_unit_from_label (label : String) : Option PhysUnit :=
  let grp := match searchPattern label.data with
             | some seg => seg
             | none => label.data
  let cleaned := String.mk (charTrim grp)
  let tokens := extract_tokens cleaned
  if tokens.isEmpty then none
  else
    let normalized := String.join tokens
    match UNIT_KEYWORDS.lookup normalized with
    | some u => some u
    | none =>
      match unit_from_composite tokens with
      | some u => some u
      | none =>
        match tokens.find? (fun t => (UNIT_KEYWORDS.lookup t).isSome) with
        | some t => UNIT_KEYWORDS.lookup t
        | none => astropyParseUnit cleaned

/-- C6: `infer_unit_from_label "wavelength (Angstrom)"` yields the Angstrom
unit, equivalent to `0.1 nm` (conversion factor `1/10` to nanometres), and
`infer_unit_from_label "irradiance_w_m2_nm"` yields `W / m2 / nm`,
equivalent to `W·m⁻²·nm⁻¹` and not equivalent to any pure wavelength unit
(no unit of length dimension admits a conversion from it). -/
theorem infer_unit_from_label_examples :
    infer_unit_from_label "wavelength (Angstrom)" = some uAA
    ∧ convertFactor uAA uNm = some (1 / 10)
    ∧ infer_unit_from_label "irradiance_w_m2_nm" = some ((uW.div uM2).div uNm)
    ∧ convertFactor ((uW.div uM2).div uNm) ⟨1000000000, dimFLambda⟩ = some 1
    ∧ (∀ u : PhysUnit, u.dim = uNm.dim →
        convertFactor ((uW.div uM2).div uNm) u = none) := by
  refine ⟨by decide, by decide, by decide, by decide, ?_⟩
  intro u hu
  unfold convertFactor
  rw [hu]
  rw [if_neg (by decide)]

/-- Witness for the C6 theorem: the composite irradiance unit does not
convert to nanometres. -/
theorem infer_unit_from_label_examples_witness :
    uNm.dim = uNm.dim
    ∧ convertFactor ((uW.div uM2).div uNm) uNm = none :=
  ⟨rfl, infer_unit_from_label_examples.2.2.2.2 uNm rfl⟩

/-! ## The load_ascii_spectrum pipeline -/

/-- `CHUNK_SIZE` of the source. -/
def CHUNK_SIZE : ℕ := 200000

/-- Split a list into chunks of `n` rows (how the chunked readers feed
`process_chunk`); written with explicit fuel so it reduces structurally. -/
def chunksOfAux (n : ℕ) : ℕ → List α → List (List α)
  | _, [] => []
  | 0, _ => []
  | fuel + 1, l => l.take n :: chunksOfAux n fuel (l.drop n)

/-- Chunks of size `n` (`n` positive at every call site). -/
def chunksOf (n : ℕ) (l : List α) : List (List α) :=
  if n = 0 then [] else chunksOfAux n l.length l

/-- Ordering on (wavelength, flux) pairs used to model `np.argsort` on the
wavelength array followed by indexing both arrays with the resulting
permutation.  The source's sort is not stable for equal wavelengths, but
equal wavelengths are subsequently collapsed by averaging, so every sort
satisfying this ordering yields the same final record. -/
def pairLe (p q : Val × Val) : Prop := Val.key p.1 q.1 = true

instance : DecidableRel pairLe := fun p q =>
  inferInstanceAs (Decidable (Val.key p.1 q.1 = true))

instance : IsTotal (Val × Val) pairLe :=
  ⟨fun p q => by
    rcases Bool.or_eq_true_iff.mp (Val.key_total p.1 q.1) with h | h
    · exact Or.inl h
    · exact Or.inr h⟩

instance : IsTrans (Val × Val) pairLe :=
  ⟨fun _ _ _ h1 h2 => Val.key_trans _ _ _ h1 h2⟩

/-- Sort the (wavelength, flux) pairs by wavelength. -/
def sortPairs (ps : List (Val × Val)) : List (Val × Val) :=
  ps.insertionSort pairLe

/-- Collapse runs of equal values in a sorted array: `np.unique` of an
already-sorted array (NaNs are collapsed like any equal values, as modern
numpy does). -/
def dedupKeys : List Val → List Val
  | [] => []
  | [a] => [a]
  | a :: b :: rest =>
    if a = b then dedupKeys (b :: rest) else a :: dedupKeys (b :: rest)

/-- Number of occurrences of wavelength `w` (`np.add.at(counts, inverse, 1)`). -/
def countAt (w : Val) (ps : List (Val × Val)) : ℕ :=
  (ps.filter (fun p => p.1 == w)).length

/-- Sum of the flux values at wavelength `w`, starting from the `np.zeros`
initial value (`np.add.at(summed_flux, inverse, flux_values)`). -/
def fluxAt (w : Val) (ps : List (Val × Val)) : Val :=
  ((ps.filter (fun p => p.1 == w)).map Prod.snd).foldl Val.add (Val.fin 0)

/-- The duplicate-collapse step of `load_ascii_spectrum` (lines 386-396):
sort by wavelength; when duplicates exist, group by unique wavelength and
average the flux of each group. -/
def sortDedup (ps : List (Val × Val)) : List (Val × Val) :=
  let sorted := sortPairs ps
  let ws := sorted.map Prod.fst
  let uniq := dedupKeys ws
  if uniq.length ≠ ws.length then
    uniq.map (fun w => (w, Val.divNat (countAt w sorted) (fluxAt w sorted)))
  else sorted

/-- Model of `np.any(np.diff(wave_values) <= 0)` with IEEE comparison
semantics (a NaN difference compares false). -/
def anyDiffNonPos : List Val → Bool
  | a :: b :: rest => (Val.sub b a).leZero || anyDiffNonPos (b :: rest)
  | _ => false

/-- Strict monotonicity of a spectral axis (the spec's invariant); any
comparison involving NaN is false, so an axis containing NaN is not strictly
increasing. -/
def strictIncr : List Val → Bool
  | a :: b :: rest => Val.lt a b && strictIncr (b :: rest)
  | _ => true

/-- Strict decrease of a spectral axis (`np.all(np.diff(axis) < 0)`); any
comparison involving NaN is false, so an axis containing NaN is neither
strictly increasing nor strictly decreasing. -/
def strictDecr : List Val → Bool
  | a :: b :: rest => Val.lt b a && strictDecr (b :: rest)
  | _ => true

/-- Lines 378-399 of the source after the wavelength-unit conversion:
if more than one point, sort by wavelength, collapse exact duplicates by
averaging, and raise when any adjacent difference compares non-positive. -/
def spectralAxisNormalize (cw flux : List Val) :
    Except String (List Val × List Val) :=
  if 1 < cw.length then
    let ps := sortDedup (cw.zip flux)
    if anyDiffNonPos (ps.map Prod.fst) then
      .error ("Spectral axis must be strictly increasing or decreasing.")
    else .ok (ps.map Prod.fst, ps.map Prod.snd)
  else .ok (cw, flux)

/-- The dimension pairs covered by the spectral-density equivalency. -/
def spectralDensityApplicable (d1 d2 : Dim) : Bool :=
  (d1 == dimFLambda && d2 == dimFNu) || (d1 == dimFNu && d2 == dimFLambda)
    || (d1 == dimNuFnu && d2 == dimFNu) || (d1 == dimFNu && d2 == dimNuFnu)
    || (d1 == dimNuFnu && d2 == dimFLambda) || (d1 == dimFLambda && d2 == dimNuFnu)

/-- The per-element factor of the spectral-density equivalency, on extended
values (`lamSI` is the wavelength in metres at that element). -/
def spectralFactorVal (d1 d2 : Dim) (lamSI : Val) : Option Val :=
  if d1 = dimFLambda ∧ d2 = dimFNu then
    some (Val.div (Val.mul lamSI lamSI) (Val.fin cLight))
  else if d1 = dimFNu ∧ d2 = dimFLambda then
    some (Val.div (Val.fin cLight) (Val.mul lamSI lamSI))
  else if d1 = dimNuFnu ∧ d2 = dimFNu then
    some (Val.div lamSI (Val.fin cLight))
  else if d1 = dimFNu ∧ d2 = dimNuFnu then
    some (Val.div (Val.fin cLight) lamSI)
  else if d1 = dimNuFnu ∧ d2 = dimFLambda then
    some (Val.div (Val.fin 1) lamSI)
  else if d1 = dimFLambda ∧ d2 = dimNuFnu then
    some lamSI
  else none

/-- One flux value through the conversion chain of lines 401-408: direct
conversion to Jansky; on `UnitConversionError` the spectral-density
equivalency at the element's canonical wavelength `lam` (in nm); if that also
fails, the value is left unchanged. -/
def convertFluxVal (uf : PhysUnit) (lam v : Val) : Val :=
  match convertFactor uf CANONICAL_FLUX_UNIT with
  | some k => Val.mul v (Val.fin k)
  | none =>
    match spectralFactorVal uf.dim CANONICAL_FLUX_UNIT.dim
        (Val.mul lam (Val.fin CANONICAL_WAVELENGTH_UNIT.scale)) with
    | some f =>
      Val.div (Val.mul (Val.mul v (Val.fin uf.scale)) f)
        (Val.fin CANONICAL_FLUX_UNIT.scale)
    | none => v

/-- The unit of the flux after the conversion chain. -/
def convertFluxUnit (uf : PhysUnit) : PhysUnit :=
  match convertFactor uf CANONICAL_FLUX_UNIT with
  | some _ => CANONICAL_FLUX_UNIT
  | none =>
    if spectralDensityApplicable uf.dim CANONICAL_FLUX_UNIT.dim then
      CANONICAL_FLUX_UNIT
    else uf

/-- `COLUMN_PRIORITY` of the source. -/
def COLUMN_PRIORITY : List String := ["wavelength", "lambda", "wave", "wl"]

/-- `FLUX_PRIORITY` of the source. -/
def FLUX_PRIORITY : List String := ["flux", "intensity", "power", "counts"]

/-- ASCII-lowered string (labels in this development are ASCII). -/
def strLower (s : String) : String := String.mk (s.data.map Char.toLower)

/-- The dict comprehension `{col.lower(): col for col in columns}` keeps the
last column for a repeated lowered key, then candidates are looked up. -/
def lowerLookup (cols : List String) (key : String) : Option String :=
  cols.reverse.find? (fun c => strLower c == key)

/-- Model of `_resolve_column`. -/
def resolve_column (cands cols : List String) : Option String :=
  match cands.findSome? (fun cand => lowerLookup cols cand) with
  | some c => some c
  | none =>
    cols.find? (fun col => cands.any (fun cand =>
      cand.data.isPrefixOf (strLower col).data))

/-- Model of `_select_columns` (the caller guarantees a nonempty column
list, so the `headD` default is never used). -/
def select_columns (cols : List String) : String × String :=
  let waveCol := (resolve_column COLUMN_PRIORITY cols).getD (cols.headD "")
  let fluxCol :=
    match resolve_column FLUX_PRIORITY cols with
    | some f => f
    | none =>
      match cols.filter (fun c => c != waveCol) with
      | [] => waveCol
      | c :: _ => c
  (waveCol, fluxCol)

/-- A value stored in the metadata `extra` mapping.  The source serialises
every entry to a string (`to_string()` for units, with the empty or "1"
label replaced by "dimensionless"; `str` for the row count; JSON for the
statistics; a comma-joined list for tier sizes); the model stores the
serialised value structurally, which carries the same information. -/
inductive MetaVal where
  | str (s : String)
  | unitVal (u : PhysUnit)
  | natVal (n : ℕ)
  | statsVal (l : List (String × ColumnStats.Summary))
  | natListVal (l : List ℕ)
deriving DecidableEq

/-- The canonical record produced by `load_ascii_spectrum`: the spectrum
(axis, flux, their units), the downsample tiers attached to the spectrum
meta, and the metadata extra mapping. -/
structure ModelRecord where
  identifier : String
  axis : List Val
  axisUnit : PhysUnit
  flux : List Val
  fluxUnit : PhysUnit
  tiers : List (ℕ × List Val × List Val)
  extra : List (String × MetaVal)
deriving DecidableEq

/-- The (wavelength, flux) sample pairs of one reservoir tier: rows missing
either key are skipped (`except KeyError: continue`; the NaN check of the
source is vacuous because reservoir rows hold only finite cells). -/
def buildTierSamples (waveCol fluxCol : String) (rows : List RowDict) :
    List (ℚ × ℚ) :=
  rows.filterMap (fun row =>
    match row.lookup waveCol, row.lookup fluxCol with
    | some w, some f => some (w, f)
    | _, _ => none)

/-- Lines 412-446: convert each nonempty tier's samples (wavelength by the
same factor `k` that converted the main axis, flux by the same fallback
chain evaluated at the tier's own wavelengths); empty tiers are dropped. -/
def buildTiers (waveCol fluxCol : String) (k : ℚ) (uf : PhysUnit)
    (reservoirs : List (ℕ × List RowDict)) :
    List (ℕ × List Val × List Val) :=
  reservoirs.filterMap (fun t =>
    let samples := buildTierSamples waveCol fluxCol t.2
    if samples.isEmpty then none
    else
      let conv := samples.map (fun p =>
        let w := Val.mul (Val.fin p.1) (Val.fin k)
        (w, convertFluxVal uf w (Val.fin p.2)))
      some (t.1, conv.map Prod.fst, conv.map Prod.snd))

/-- The metadata `extra` mapping of the assembled record (lines 457-477):
the column/unit provenance, the row count, the serialised statistics when
nonempty, and the sorted tier sizes when tiers exist. -/
def recordExtra (waveCol fluxCol : String) (uw uf : PhysUnit)
    (analytics : FinalizeResult) (tiers : List (ℕ × List Val × List Val)) :
    List (String × MetaVal) :=
  [("wave_column", .str waveCol), ("flux_column", .str fluxCol),
   ("wavelength_unit", .unitVal uw),
   ("flux_unit", .unitVal (convertFluxUnit uf)),
   ("row_count", .natVal analytics.rowCount)]
  ++ (if analytics.stats.isEmpty then []
      else [("column_statistics", .statsVal analytics.stats)])
  ++ (if tiers.isEmpty then []
      else [("downsample_tiers",
        .natListVal ((tiers.map Prod.fst).insertionSort (· ≤ ·)))])

/-- The record-assembly tail once the wavelength conversion factor `k` is
known: sort/deduplicate/validate, run the flux conversion chain, construct
the `Spectrum`, build the downsample tiers, and attach the metadata.  The
`Spectrum` constructor (specutils, an external library; modelled from the
spec) requires its spectral axis to be strictly increasing or strictly
decreasing — `np.all(np.diff(axis) > 0)` or `np.all(np.diff(axis) < 0)` —
and raises a `ValueError` carrying the same message as the loader's own
check otherwise; a NaN in the axis makes every comparison false, so such an
axis is rejected here even though the `np.diff(...) <= 0` check above did
not fire on it. -/
def assembleWithK (source waveCol fluxCol : String) (uw uf : PhysUnit)
    (k : ℚ) (waves flux : List Val) (analytics : FinalizeResult) :
    Except String ModelRecord :=
  match spectralAxisNormalize (waves.map (fun v => Val.mul v (Val.fin k)))
      flux with
  | .error e => .error e
  | .ok axisFlux =>
    if strictIncr axisFlux.1 || strictDecr axisFlux.1 then
      .ok { identifier := source
            axis := axisFlux.1
            axisUnit := CANONICAL_WAVELENGTH_UNIT
            flux := (axisFlux.1.zip axisFlux.2).map
              (fun p => convertFluxVal uf p.1 p.2)
            fluxUnit := convertFluxUnit uf
            tiers := buildTiers waveCol fluxCol k uf analytics.reservoirs
            extra := recordExtra waveCol fluxCol uw uf analytics
              (buildTiers waveCol fluxCol k uf analytics.reservoirs) }
    else .error ("Spectral axis must be strictly increasing or decreasing.")

/-- Lines 372-480 of `load_ascii_spectrum`, after the wavelength and flux
columns have been resolved: infer units (defaulting to the canonical
units), convert the wavelength axis (raising `UnitConversionError` when the
inferred wavelength unit is not a length), then assemble the record. -/
def assembleRecord (source waveCol fluxCol : String)
    (waves flux : List Val) (analytics : FinalizeResult) :
    Except String ModelRecord :=
  match convertFactor ((infer_unit_from_label waveCol).getD
      CANONICAL_WAVELENGTH_UNIT) CANONICAL_WAVELENGTH_UNIT with
  | none => .error ("UnitConversionError")
  | some k =>
    assembleWithK source waveCol fluxCol
      ((infer_unit_from_label waveCol).getD CANONICAL_WAVELENGTH_UNIT)
      ((infer_unit_from_label fluxCol).getD CANONICAL_FLUX_UNIT)
      k waves flux analytics

/-- A parsed delimited input: the column names (from the header or
synthesised) and the data rows, with every cell already coerced to a float
(`Val.nan` for cells that fail coercion). -/
structure AsciiInput where
  names : List String
  rows : List (List Val)
deriving DecidableEq

/-- Model of `_read_table` from the row level: error on zero data rows,
stream the rows through a `ChunkAccumulator` in `CHUNK_SIZE` chunks, and
error when no column ever held a finite value. -/
def read_table (inp : AsciiInput) :
    Except String FinalizeResult :=
  if inp.rows.isEmpty then .error ("No data rows detected in ASCII spectrum")
  else
    let acc := (chunksOf CHUNK_SIZE inp.rows).foldl processChunk
      (mkAccumulator inp.names)
    let res := finalize acc
    if res.columnData.isEmpty then
      .error ("No numeric columns detected in ASCII spectrum")
    else .ok res

/-- Model of `load_ascii_spectrum` for an in-memory source. -/
def load_ascii_spectrum (inp : AsciiInput) : Except String ModelRecord :=
  match read_table inp with
  | .error e => .error e
  | .ok analytics =>
    assembleRecord ("in-memory")
      (select_columns (analytics.columnData.map Prod.fst)).1
      (select_columns (analytics.columnData.map Prod.fst)).2
      ((analytics.columnData.lookup
        (select_columns (analytics.columnData.map Prod.fst)).1).getD [])
      ((analytics.columnData.lookup
        (select_columns (analytics.columnData.map Prod.fst)).2).getD [])
      analytics

/-! ## The validation check after sort and deduplication -/

theorem Val.key_antisymm (a b : Val) :
    Val.key a b = true → Val.key b a = true → a = b := by
  cases a <;> cases b <;> simp [Val.key] <;>
    exact fun h1 h2 => le_antisymm h1 h2

theorem sub_leZero_false_of_key_ne (a b : Val)
    (hk : Val.key a b = true) (hne : a ≠ b) :
    (Val.sub b a).leZero = false := by
  cases a <;> cases b <;>
    simp_all [Val.key, Val.sub, Val.leZero]
  exact lt_of_le_of_ne hk hne

theorem dedupKeys_cons_head (xs : List Val) (x : Val) :
    ∃ t, dedupKeys (x :: xs) = x :: t := by
  induction xs generalizing x with
  | nil => exact ⟨[], rfl⟩
  | cons y ys ih =>
    unfold dedupKeys
    by_cases hxy : x = y
    · obtain ⟨t, ht⟩ := ih y
      rw [if_pos hxy, ht, hxy]
      exact ⟨t, rfl⟩
    · rw [if_neg hxy]
      exact ⟨dedupKeys (y :: ys), rfl⟩

theorem anyDiffNonPos_dedupKeys (ws : List Val)
    (h : ws.Pairwise (fun a b => Val.key a b = true)) :
    anyDiffNonPos (dedupKeys ws) = false := by
  induction ws with
  | nil => rfl
  | cons a rest ih =>
    cases rest with
    | nil => rfl
    | cons b rest' =>
      rw [List.pairwise_cons] at h
      obtain ⟨hab, htail⟩ := h
      by_cases heq : a = b
      · show anyDiffNonPos (if a = b then dedupKeys (b :: rest')
          else a :: dedupKeys (b :: rest')) = false
        rw [if_pos heq]
        exact ih htail
      · show anyDiffNonPos (if a = b then dedupKeys (b :: rest')
          else a :: dedupKeys (b :: rest')) = false
        rw [if_neg heq]
        obtain ⟨t, ht⟩ := dedupKeys_cons_head rest' b
        rw [ht]
        show ((Val.sub b a).leZero || anyDiffNonPos (b :: t)) = false
        rw [sub_leZero_false_of_key_ne a b (hab b (by simp)) heq]
        rw [← ht]
        simpa using ih htail

theorem dedupKeys_sublist (ws : List Val) : List.Sublist (dedupKeys ws) ws := by
  induction ws with
  | nil => simp [dedupKeys]
  | cons a rest ih =>
    cases rest with
    | nil => simp [dedupKeys]
    | cons b rest' =>
      show List.Sublist (if a = b then dedupKeys (b :: rest')
        else a :: dedupKeys (b :: rest')) (a :: b :: rest')
      by_cases heq : a = b
      · rw [if_pos heq]
        exact ih.cons a
      · rw [if_neg heq]
        exact ih.cons₂ a

theorem dedupKeys_eq_of_length (ws : List Val)
    (h : (dedupKeys ws).length = ws.length) : dedupKeys ws = ws :=
  (dedupKeys_sublist ws).eq_of_length h

theorem sortPairs_pairwise (ps : List (Val × Val)) :
    (sortPairs ps).Pairwise pairLe :=
  List.sorted_insertionSort pairLe ps

theorem sortPairs_perm (ps : List (Val × Val)) : List.Perm (sortPairs ps) ps :=
  List.perm_insertionSort pairLe ps

theorem sortPairs_keys_pairwise (ps : List (Val × Val)) :
    ((sortPairs ps).map Prod.fst).Pairwise (fun a b => Val.key a b = true) := by
  rw [List.pairwise_map]
  exact sortPairs_pairwise ps

/-- The validation error of `spectralAxisNormalize` can never fire: after the
sort, exact-duplicate collapse leaves no adjacent pair whose difference
compares non-positive (a NaN difference compares false). -/
theorem anyDiffNonPos_sortDedup_keys (ps : List (Val × Val)) :
    anyDiffNonPos ((sortDedup ps).map Prod.fst) = false := by
  have hkey := sortPairs_keys_pairwise ps
  simp only [sortDedup]
  by_cases hne : (dedupKeys ((sortPairs ps).map Prod.fst)).length
      ≠ ((sortPairs ps).map Prod.fst).length
  · rw [if_pos hne, List.map_map]
    have hcomp : (Prod.fst ∘ fun w => (w,
        Val.divNat (countAt w (sortPairs ps)) (fluxAt w (sortPairs ps))))
        = id := rfl
    rw [hcomp, List.map_id]
    exact anyDiffNonPos_dedupKeys _ hkey
  · rw [if_neg hne]
    push_neg at hne
    rw [← dedupKeys_eq_of_length _ hne]
    exact anyDiffNonPos_dedupKeys _ hkey

theorem spectralAxisNormalize_eq (cw flux : List Val) (h1 : 1 < cw.length) :
    spectralAxisNormalize cw flux
      = .ok ((sortDedup (cw.zip flux)).map Prod.fst,
             (sortDedup (cw.zip flux)).map Prod.snd) := by
  unfold spectralAxisNormalize
  rw [if_pos h1]
  simp only [anyDiffNonPos_sortDedup_keys, Bool.false_eq_true, if_false]

theorem spectralAxisNormalize_ok (cw flux : List Val) :
    ∃ af, spectralAxisNormalize cw flux = .ok af := by
  by_cases h1 : 1 < cw.length
  · exact ⟨_, spectralAxisNormalize_eq cw flux h1⟩
  · refine ⟨(cw, flux), ?_⟩
    unfold spectralAxisNormalize
    rw [if_neg h1]

theorem spectralAxisNormalize_lengths (cw flux : List Val)
    (af : List Val × List Val)
    (hok : spectralAxisNormalize cw flux = .ok af)
    (hlen : cw.length = flux.length) : af.1.length = af.2.length := by
  by_cases h1 : 1 < cw.length
  · rw [spectralAxisNormalize_eq cw flux h1] at hok
    simp only [Except.ok.injEq] at hok
    rw [← hok]
    simp
  · unfold spectralAxisNormalize at hok
    rw [if_neg h1] at hok
    simp only [Except.ok.injEq] at hok
    rw [← hok]
    exact hlen

theorem chunksOfAux_flatten (n : ℕ) (hn : 0 < n) :
    ∀ (fuel : ℕ) (l : List α), l.length ≤ fuel →
      (chunksOfAux n fuel l).flatten = l := by
  intro fuel
  induction fuel with
  | zero =>
    intro l hl
    rw [List.length_eq_zero.mp (Nat.le_zero.mp hl)]
    rfl
  | succ f ih =>
    intro l hl
    cases l with
    | nil => rfl
    | cons x xs =>
      show ((x :: xs).take n :: chunksOfAux n f ((x :: xs).drop n)).flatten
        = x :: xs
      have hd : ((x :: xs).drop n).length ≤ f := by
        rw [List.length_drop, List.length_cons]
        rw [List.length_cons] at hl
        omega
      rw [List.flatten_cons, ih ((x :: xs).drop n) hd]
      exact List.take_append_drop n (x :: xs)

theorem chunksOf_flatten (n : ℕ) (hn : 0 < n) (l : List α) :
    (chunksOf n l).flatten = l := by
  unfold chunksOf
  rw [if_neg (Nat.pos_iff_ne_zero.mp hn)]
  exact chunksOfAux_flatten n hn l.length l le_rfl

theorem colSlice_no_finite (chunk : List (List Val)) (j : ℕ)
    (h : ∀ row ∈ chunk, ∀ v ∈ row, v.isFinite = false) :
    (colSlice chunk j).any Val.isFinite = false := by
  rw [List.any_eq_false]
  intro v hv
  obtain ⟨row, hrow, hval⟩ := List.mem_map.mp hv
  rw [← hval, List.getD_eq_getElem?_getD]
  rcases hg : row[j]? with _ | x
  · simp [Val.isFinite]
  · simpa using h row hrow x (List.getElem?_mem hg)

theorem processNames_no_numeric (chunk : List (List Val))
    (h : ∀ row ∈ chunk, ∀ v ∈ row, v.isFinite = false) :
    ∀ (ps : List (ℕ × String)) (m : List (String × ColState)),
      (∀ p ∈ m, p.2.hasNumeric = false) →
      ∀ p ∈ processNames chunk ps m, p.2.hasNumeric = false := by
  intro ps
  induction ps with
  | nil => intro m hm p hp; exact hm p hp
  | cons q rest ih =>
    intro m hm p hp
    refine ih _ ?_ p hp
    intro x hx
    unfold updateEntry at hx
    obtain ⟨y, hy, hxy⟩ := List.mem_map.mp hx
    rw [← hxy]
    by_cases hk : y.1 = q.2
    · rw [if_pos hk]
      show (y.2.processCol (colSlice chunk q.1)).hasNumeric = false
      unfold ColState.processCol
      rw [colSlice_no_finite chunk q.1 h]
      simp only [Bool.false_eq_true, if_false]
      exact hm y hy
    · rw [if_neg hk]
      exact hm y hy

theorem fold_no_numeric (chunks : List (List (List Val))) (s : AccState)
    (hch : ∀ ch ∈ chunks, ∀ row ∈ ch, ∀ v ∈ row, v.isFinite = false)
    (hs : ∀ p ∈ s.cols, p.2.hasNumeric = false) :
    ∀ p ∈ (chunks.foldl processChunk s).cols, p.2.hasNumeric = false := by
  induction chunks generalizing s with
  | nil => exact hs
  | cons ch rest ih =>
    rw [List.foldl_cons]
    refine ih (processChunk s ch)
      (fun x hx => hch x (by simp [hx])) ?_
    unfold processChunk
    split
    · exact hs
    · exact processNames_no_numeric ch (hch ch (by simp)) s.names.enum s.cols hs

/-- C5: an input with zero data rows fails with the empty-input error, and an
input in which no cell is ever a finite number fails with the
no-numeric-columns error; in both cases no record is returned. -/
theorem empty_or_non_numeric_input_fails (inp : AsciiInput) :
    (inp.rows = [] →
      load_ascii_spectrum inp
        = .error ("No data rows detected in ASCII spectrum"))
    ∧ ((∀ row ∈ inp.rows, ∀ v ∈ row, v.isFinite = false) → inp.rows ≠ [] →
      load_ascii_spectrum inp
        = .error ("No numeric columns detected in ASCII spectrum")) := by
  constructor
  · intro hrows
    unfold load_ascii_spectrum read_table
    rw [hrows]
    rfl
  · intro hnon hne
    have hcols : ∀ p ∈ ((chunksOf CHUNK_SIZE inp.rows).foldl processChunk
        (mkAccumulator inp.names)).cols, p.2.hasNumeric = false := by
      refine fold_no_numeric _ _ ?_ ?_
      · intro ch hch row hrow v hv
        have hflat : row ∈ (chunksOf CHUNK_SIZE inp.rows).flatten :=
          List.mem_flatten.mpr ⟨ch, hch, hrow⟩
        rw [chunksOf_flatten CHUNK_SIZE (by decide)] at hflat
        exact hnon row hflat v hv
      · intro p hp
        obtain ⟨_, _, h⟩ := List.mem_map.mp hp
        rw [← h]
        rfl
    have hdata : (finalize ((chunksOf CHUNK_SIZE inp.rows).foldl processChunk
        (mkAccumulator inp.names))).columnData = [] := by
      unfold finalize
      simp only
      rw [List.filterMap_eq_nil]
      intro n hn2
      rcases colFor_eq_init_or_mem (((chunksOf CHUNK_SIZE inp.rows).foldl
          processChunk (mkAccumulator inp.names)).cols) n with hinit | ⟨q, hq, he⟩
      · rw [hinit]
        rfl
      · rw [he]
        have hnum := hcols q hq
        unfold ColState.finalCol
        rw [hnum]
        rfl
    have hrt : read_table inp
        = .error ("No numeric columns detected in ASCII spectrum") := by
      unfold read_table
      rw [if_neg (by simpa using hne)]
      simp only [hdata]
      rfl
    unfold load_ascii_spectrum
    rw [hrt]

/-- Witness for the C5 theorem at concrete empty and all-text inputs. -/
theorem empty_or_non_numeric_input_fails_witness :
    load_ascii_spectrum ⟨["a"], []⟩
      = .error ("No data rows detected in ASCII spectrum")
    ∧ load_ascii_spectrum ⟨["a"], [[Val.nan]]⟩
      = .error ("No numeric columns detected in ASCII spectrum") :=
  ⟨(empty_or_non_numeric_input_fails ⟨["a"], []⟩).1 rfl,
   (empty_or_non_numeric_input_fails ⟨["a"], [[Val.nan]]⟩).2
     (by decide) (by decide)⟩

/-- C10: ingestion is deterministic across runs.  The embedding is a pure
function of the input — the only potential source of nondeterminism in the
source, the reservoir's random generator, is constructed per accumulator
from the fixed seed `0` (`RowReservoir.__init__`'s default used by
`ChunkAccumulator.__init__`), modelled here as a deterministic stream — so
two ingestions of the same content yield identical records, downsample
tiers included. -/
theorem load_ascii_spectrum_deterministic (inp : AsciiInput) :
    load_ascii_spectrum inp = load_ascii_spectrum inp
    ∧ ∀ names, (mkAccumulator names).reservoir
        = RowReservoir.init DOWNSAMPLE_TIERS 0 :=
  ⟨rfl, fun _ => rfl⟩

/-- C8: every reservoir tier's bucket is bounded by its configured capacity
after any sequence of offered rows (hence at all times), and every
downsample tier exported on a loaded record has wavelength and flux preview
arrays of equal length. -/
theorem reservoir_bounded_and_tiers_parallel
    (rows : List RowDict) (inp : AsciiInput) :
    (∀ p ∈ (rows.foldl RowReservoir.add
        (RowReservoir.init DOWNSAMPLE_TIERS 0)).tiers, p.2.length ≤ p.1)
    ∧ (∀ t ∈ ((load_ascii_spectrum inp).toOption.map ModelRecord.tiers).getD [],
        t.2.1.length = t.2.2.length) := by
  constructor
  · exact RowReservoir.fold_add_bounded rows _
      (RowReservoir.init_bounded DOWNSAMPLE_TIERS 0)
  · intro t ht
    rcases hload : load_ascii_spectrum inp with e | r
    · rw [hload] at ht
      simp [Except.toOption] at ht
    · rw [hload] at ht
      simp only [Except.toOption, Option.map_some', Option.getD_some] at ht
      have htiers : ∃ waveCol fluxCol k uf reservoirs,
          r.tiers = buildTiers waveCol fluxCol k uf reservoirs := by
        unfold load_ascii_spectrum at hload
        split at hload
        · cases hload
        · unfold assembleRecord at hload
          split at hload
          · cases hload
          · unfold assembleWithK at hload
            split at hload
            · cases hload
            · split at hload
              · simp only [Except.ok.injEq] at hload
                subst hload
                exact ⟨_, _, _, _, _, rfl⟩
              · cases hload
      obtain ⟨wc, fc, k, uf, res, htr⟩ := htiers
      rw [htr] at ht
      unfold buildTiers at ht
      obtain ⟨q, _, hq⟩ := List.mem_filterMap.mp ht
      by_cases hempty : (buildTierSamples wc fc q.2).isEmpty
      · rw [if_pos hempty] at hq
        cases hq
      · rw [if_neg hempty] at hq
        simp only [Option.some.injEq] at hq
        rw [← hq]
        simp

/-- Witness for the C8 theorem: one offered row and one loaded two-row
spectrum. -/
theorem reservoir_bounded_and_tiers_parallel_witness :
    ((512, [[(("wavelength" : String), (1 : ℚ)), ("flux", 2)]])
        ∈ (([[(("wavelength" : String), (1 : ℚ)), ("flux", 2)]] :
          List RowDict).foldl RowReservoir.add
          (RowReservoir.init DOWNSAMPLE_TIERS 0)).tiers)
    ∧ ([[(("wavelength" : String), (1 : ℚ)), ("flux", 2)]] :
        List RowDict).length ≤ 512
    ∧ ((512, [Val.fin 1, Val.fin 2], [Val.fin 2, Val.fin 3])
        ∈ ((load_ascii_spectrum ⟨["wavelength", "flux"],
            [[Val.fin 1, Val.fin 2], [Val.fin 2, Val.fin 3]]⟩).toOption.map
          ModelRecord.tiers).getD [])
    ∧ ([Val.fin 1, Val.fin 2] : List Val).length
      = ([Val.fin 2, Val.fin 3] : List Val).length := by
  refine ⟨by decide, ?_, by decide, ?_⟩
  · exact (reservoir_bounded_and_tiers_parallel
      ([[(("wavelength" : String), (1 : ℚ)), ("flux", 2)]] : List RowDict)
      ⟨["wavelength", "flux"],
        [[Val.fin 1, Val.fin 2], [Val.fin 2, Val.fin 3]]⟩).1
      (512, [[(("wavelength" : String), (1 : ℚ)), ("flux", 2)]]) (by decide)
  · exact (reservoir_bounded_and_tiers_parallel
      ([[(("wavelength" : String), (1 : ℚ)), ("flux", 2)]] : List RowDict)
      ⟨["wavelength", "flux"],
        [[Val.fin 1, Val.fin 2], [Val.fin 2, Val.fin 3]]⟩).2
      (512, [Val.fin 1, Val.fin 2], [Val.fin 2, Val.fin 3]) (by decide)

/-! ## Duplicate-wavelength collapse -/

theorem val_add_zero_left (v : Val) : Val.add (Val.fin 0) v = v := by
  cases v <;> simp [Val.add]

theorem mem_dedupKeys (ws : List Val) (x : Val) (hx : x ∈ ws) :
    x ∈ dedupKeys ws := by
  induction ws with
  | nil => cases hx
  | cons a rest ih =>
    cases rest with
    | nil => simpa [dedupKeys] using hx
    | cons b rest' =>
      show x ∈ (if a = b then dedupKeys (b :: rest')
        else a :: dedupKeys (b :: rest'))
      by_cases heq : a = b
      · rw [if_pos heq]
        rcases List.mem_cons.mp hx with h | h
        · exact ih (by rw [h, heq]; simp)
        · exact ih h
      · rw [if_neg heq]
        rcases List.mem_cons.mp hx with h | h
        · exact h ▸ List.mem_cons_self a _
        · exact List.mem_cons_of_mem a (ih h)

/-- The strict order underlying a sorted, adjacent-distinct key list. -/
def valSLt (a b : Val) : Prop := Val.key a b = true ∧ a ≠ b

instance : IsTrans Val valSLt :=
  ⟨fun a b c h1 h2 => by
    refine ⟨Val.key_trans a b c h1.1 h2.1, ?_⟩
    intro hac
    exact h1.2 (Val.key_antisymm a b h1.1 (hac ▸ h2.1))⟩

theorem dedupKeys_chain_ne (ws : List Val) :
    List.Chain' (· ≠ ·) (dedupKeys ws) := by
  induction ws with
  | nil => simp [dedupKeys]
  | cons a rest ih =>
    cases rest with
    | nil => simp [dedupKeys]
    | cons b rest' =>
      show List.Chain' (· ≠ ·) (if a = b then dedupKeys (b :: rest')
        else a :: dedupKeys (b :: rest'))
      by_cases heq : a = b
      · rw [if_pos heq]
        exact ih
      · rw [if_neg heq]
        obtain ⟨t, ht⟩ := dedupKeys_cons_head rest' b
        rw [ht]
        rw [ht] at ih
        exact List.Chain'.cons heq ih

theorem nodup_dedupKeys_of_sorted (ws : List Val)
    (h : ws.Pairwise (fun a b => Val.key a b = true)) :
    (dedupKeys ws).Nodup := by
  have hpair : (dedupKeys ws).Pairwise (fun a b => Val.key a b = true) :=
    List.Pairwise.sublist (dedupKeys_sublist ws) h
  have hchain : List.Chain' valSLt (dedupKeys ws) := by
    have h1 := hpair.chain'
    have h2 := dedupKeys_chain_ne ws
    revert h1 h2
    generalize dedupKeys ws = l
    intro h1 h2
    induction l with
    | nil => simp
    | cons a rest ih =>
      cases rest with
      | nil => simp [valSLt]
      | cons b rest' =>
        rw [List.chain'_cons] at h1 h2 ⊢
        exact ⟨⟨h1.1, h2.1⟩, ih h1.2 h2.2⟩
  have hp : (dedupKeys ws).Pairwise valSLt := List.chain'_iff_pairwise.mp hchain
  exact hp.imp (fun h => h.2)

theorem lt_false_of_key (a b : Val) :
    Val.key a b = true → Val.lt b a = false := by
  cases a <;> cases b <;> simp [Val.key, Val.lt]

theorem strictIncr_short (l : List Val) (h : l.length ≤ 1) :
    strictIncr l = true := by
  cases l with
  | nil => rfl
  | cons a t =>
    cases t with
    | nil => rfl
    | cons b r => simp at h

theorem isFinite_exists (v : Val) (h : v.isFinite = true) :
    ∃ q, v = Val.fin q := by
  cases v with
  | fin q => exact ⟨q, rfl⟩
  | nan => simp [Val.isFinite] at h
  | inf => simp [Val.isFinite] at h
  | ninf => simp [Val.isFinite] at h

theorem strictIncr_of_slt_finite (l : List Val) (hp : l.Pairwise valSLt)
    (hfin : ∀ v ∈ l, ∃ q, v = Val.fin q) : strictIncr l = true := by
  induction l with
  | nil => rfl
  | cons a t ih =>
    cases t with
    | nil => rfl
    | cons b r =>
      rw [List.pairwise_cons] at hp
      obtain ⟨qa, ha⟩ := hfin a (by simp)
      obtain ⟨qb, hb⟩ := hfin b (by simp)
      have hab := hp.1 b (by simp)
      have hlt : Val.lt a b = true := by
        rw [ha, hb]
        rw [ha, hb] at hab
        have hle : qa ≤ qb := by simpa [Val.key] using hab.1
        have hne : qa ≠ qb := fun hq => hab.2 (by rw [hq])
        simp only [Val.lt, decide_eq_true_eq]
        exact lt_of_le_of_ne hle hne
      have htail : strictIncr (b :: r) = true :=
        ih hp.2 (fun v hv => hfin v (by simp [hv]))
      show (Val.lt a b && strictIncr (b :: r)) = true
      rw [hlt, htail]
      rfl

theorem sortDedup_keys_slt (ps : List (Val × Val)) :
    ((sortDedup ps).map Prod.fst).Pairwise valSLt := by
  have hkey := sortPairs_keys_pairwise ps
  simp only [sortDedup]
  by_cases hne : (dedupKeys ((sortPairs ps).map Prod.fst)).length
      ≠ ((sortPairs ps).map Prod.fst).length
  · rw [if_pos hne, List.map_map]
    have hcomp : (Prod.fst ∘ fun w => (w,
        Val.divNat (countAt w (sortPairs ps)) (fluxAt w (sortPairs ps))))
        = id := rfl
    rw [hcomp, List.map_id]
    have hpk := List.Pairwise.sublist (dedupKeys_sublist _) hkey
    have hnd := nodup_dedupKeys_of_sorted _ hkey
    exact (hpk.and hnd).imp (fun hh => hh)
  · rw [if_neg hne]
    push_neg at hne
    have hnd : ((sortPairs ps).map Prod.fst).Nodup := by
      rw [← dedupKeys_eq_of_length _ hne]
      exact nodup_dedupKeys_of_sorted _ hkey
    exact (hkey.and hnd).imp (fun hh => hh)

theorem sortDedup_keys_mem (ps : List (Val × Val)) (v : Val)
    (hv : v ∈ (sortDedup ps).map Prod.fst) : v ∈ ps.map Prod.fst := by
  simp only [sortDedup] at hv
  by_cases hne : (dedupKeys ((sortPairs ps).map Prod.fst)).length
      ≠ ((sortPairs ps).map Prod.fst).length
  · rw [if_pos hne, List.map_map] at hv
    have hcomp : (Prod.fst ∘ fun w => (w,
        Val.divNat (countAt w (sortPairs ps)) (fluxAt w (sortPairs ps))))
        = id := rfl
    rw [hcomp, List.map_id] at hv
    exact ((sortPairs_perm ps).map Prod.fst).mem_iff.mp
      ((dedupKeys_sublist _).subset hv)
  · rw [if_neg hne] at hv
    exact ((sortPairs_perm ps).map Prod.fst).mem_iff.mp hv

theorem strictIncr_sortDedup_keys_of_finite (ps : List (Val × Val))
    (hfin : ∀ p ∈ ps, ∃ q, p.1 = Val.fin q) :
    strictIncr ((sortDedup ps).map Prod.fst) = true := by
  refine strictIncr_of_slt_finite _ (sortDedup_keys_slt ps) ?_
  intro v hv
  obtain ⟨p, hp, hpv⟩ := List.mem_map.mp (sortDedup_keys_mem ps v hv)
  obtain ⟨q, hq⟩ := hfin p hp
  exact ⟨q, by rw [← hpv]; exact hq⟩

theorem spectralAxisNormalize_strictIncr (cw flux : List Val)
    (af : List Val × List Val)
    (hok : spectralAxisNormalize cw flux = .ok af)
    (hfin : ∀ v ∈ cw, ∃ q, v = Val.fin q) : strictIncr af.1 = true := by
  by_cases h1 : 1 < cw.length
  · rw [spectralAxisNormalize_eq _ _ h1] at hok
    simp only [Except.ok.injEq] at hok
    have hzip : ∀ p ∈ cw.zip flux, ∃ q, p.1 = Val.fin q := by
      intro p hp
      exact hfin p.1 (List.of_mem_zip hp).1
    rw [← hok]
    exact strictIncr_sortDedup_keys_of_finite _ hzip
  · unfold spectralAxisNormalize at hok
    rw [if_neg h1] at hok
    simp only [Except.ok.injEq] at hok
    rw [← hok]
    exact strictIncr_short cw (Nat.not_lt.mp h1)

theorem strictIncr_of_strictDecr_sorted (l : List Val)
    (hp : l.Pairwise (fun a b => Val.key a b = true))
    (hd : strictDecr l = true) : strictIncr l = true := by
  cases l with
  | nil => rfl
  | cons a t =>
    cases t with
    | nil => rfl
    | cons b rest =>
      rw [List.pairwise_cons] at hp
      have hk := hp.1 b (by simp)
      have hlt : Val.lt b a = true := by
        have hd2 : (Val.lt b a && strictDecr (b :: rest)) = true := hd
        cases hba : Val.lt b a with
        | false => rw [hba] at hd2; simp at hd2
        | true => rfl
      rw [lt_false_of_key a b hk] at hlt
      cases hlt

theorem spectralAxisNormalize_ok_strictIncr (cw flux : List Val)
    (af : List Val × List Val)
    (hok : spectralAxisNormalize cw flux = .ok af)
    (hval : (strictIncr af.1 || strictDecr af.1) = true) :
    strictIncr af.1 = true := by
  rcases Bool.or_eq_true_iff.mp hval with h | h
  · exact h
  · by_cases h1 : 1 < cw.length
    · rw [spectralAxisNormalize_eq _ _ h1] at hok
      simp only [Except.ok.injEq] at hok
      have hpk : af.1.Pairwise (fun a b => Val.key a b = true) := by
        rw [← hok]
        exact (sortDedup_keys_slt (cw.zip flux)).imp (fun hh => hh.1)
      exact strictIncr_of_strictDecr_sorted af.1 hpk h
    · unfold spectralAxisNormalize at hok
      rw [if_neg h1] at hok
      simp only [Except.ok.injEq] at hok
      rw [← hok]
      exact strictIncr_short cw (Nat.not_lt.mp h1)

theorem assembleWithK_eq_ok (source waveCol fluxCol : String)
    (uw uf : PhysUnit) (k : ℚ) (waves flux : List Val)
    (analytics : FinalizeResult) (af : List Val × List Val)
    (haf : spectralAxisNormalize (waves.map (fun v => Val.mul v (Val.fin k)))
      flux = .ok af)
    (hval : strictIncr af.1 = true) :
    assembleWithK source waveCol fluxCol uw uf k waves flux analytics
      = .ok { identifier := source
              axis := af.1
              axisUnit := CANONICAL_WAVELENGTH_UNIT
              flux := (af.1.zip af.2).map (fun p => convertFluxVal uf p.1 p.2)
              fluxUnit := convertFluxUnit uf
              tiers := buildTiers waveCol fluxCol k uf analytics.reservoirs
              extra := recordExtra waveCol fluxCol uw uf analytics
                (buildTiers waveCol fluxCol k uf analytics.reservoirs) } := by
  unfold assembleWithK
  split
  · rename_i e he
    rw [haf] at he
    cases he
  · rename_i af2 haf2
    rw [haf] at haf2
    injection haf2 with h2
    subst h2
    rw [if_pos (by rw [hval]; rfl)]

theorem assembleWithK_eq_error (source waveCol fluxCol : String)
    (uw uf : PhysUnit) (k : ℚ) (waves flux : List Val)
    (analytics : FinalizeResult) (af : List Val × List Val)
    (haf : spectralAxisNormalize (waves.map (fun v => Val.mul v (Val.fin k)))
      flux = .ok af)
    (hbad : (strictIncr af.1 || strictDecr af.1) = false) :
    assembleWithK source waveCol fluxCol uw uf k waves flux analytics
      = .error ("Spectral axis must be strictly increasing or decreasing.") := by
  unfold assembleWithK
  split
  · rename_i e he
    rw [haf] at he
    cases he
  · rename_i af2 haf2
    rw [haf] at haf2
    injection haf2 with h2
    subst h2
    rw [if_neg (by simp [hbad])]

/-- C3: after sorting and collapsing exact duplicates, an axis that fails
the strict-monotonicity validation (neither strictly increasing nor
strictly decreasing — for instance an axis containing a NaN wavelength
coerced from a non-numeric cell) makes the assembly raise the validation
`ValueError`, and `load_ascii_spectrum` never returns a record whose
spectral axis is not strictly increasing. -/
theorem axis_validation_enforced (source waveCol fluxCol : String)
    (uw uf : PhysUnit) (k : ℚ) (waves flux : List Val)
    (analytics : FinalizeResult) (af : List Val × List Val)
    (inp : AsciiInput) :
    (spectralAxisNormalize (waves.map (fun v => Val.mul v (Val.fin k)))
        flux = .ok af →
      (strictIncr af.1 || strictDecr af.1) = false →
      assembleWithK source waveCol fluxCol uw uf k waves flux analytics
        = .error ("Spectral axis must be strictly increasing or decreasing."))
    ∧ (∀ r, load_ascii_spectrum inp = .ok r → strictIncr r.axis = true) := by
  constructor
  · intro haf hbad
    exact assembleWithK_eq_error source waveCol fluxCol uw uf k waves flux
      analytics af haf hbad
  · intro r hload
    unfold load_ascii_spectrum at hload
    split at hload
    · cases hload
    · unfold assembleRecord at hload
      split at hload
      · cases hload
      · unfold assembleWithK at hload
        split at hload
        · cases hload
        · rename_i af2 haf2
          split at hload
          · rename_i hval
            simp only [Except.ok.injEq] at hload
            subst hload
            exact spectralAxisNormalize_ok_strictIncr _ _ af2 haf2 hval
          · cases hload

/-- Witness for the C3 theorem: a NaN-bearing axis raises the validation
error, and a loaded all-finite two-row spectrum has a strictly increasing
axis. -/
theorem axis_validation_enforced_witness :
    (assembleWithK ("in-memory") ("wavelength") ("flux") uNm uJy 1
        [Val.fin 1, Val.nan] [Val.fin 2, Val.fin 3] ⟨[], [], [], [], 2⟩
      = .error ("Spectral axis must be strictly increasing or decreasing."))
    ∧ ((load_ascii_spectrum ⟨["wavelength", "flux"],
        [[Val.fin 1, Val.fin 2], [Val.fin 2, Val.fin 3]]⟩).toOption.map
          (fun r => strictIncr r.axis) = some true) := by
  constructor
  · exact (axis_validation_enforced ("in-memory") ("wavelength") ("flux")
      uNm uJy 1 [Val.fin 1, Val.nan] [Val.fin 2, Val.fin 3]
      ⟨[], [], [], [], 2⟩ ([Val.fin 1, Val.nan], [Val.fin 2, Val.fin 3])
      ⟨[], []⟩).1 rfl (by decide)
  · obtain ⟨r, hr⟩ := Option.isSome_iff_exists.mp
      (show (load_ascii_spectrum ⟨["wavelength", "flux"],
          [[Val.fin 1, Val.fin 2], [Val.fin 2, Val.fin 3]]⟩).toOption.isSome
        by decide)
    have hok : load_ascii_spectrum ⟨["wavelength", "flux"],
        [[Val.fin 1, Val.fin 2], [Val.fin 2, Val.fin 3]]⟩ = .ok r := by
      rcases hl : load_ascii_spectrum ⟨["wavelength", "flux"],
          [[Val.fin 1, Val.fin 2], [Val.fin 2, Val.fin 3]]⟩ with e | r2
      · rw [hl] at hr
        exact absurd hr (by simp [Except.toOption])
      · rw [hl] at hr
        simp only [Except.toOption, Option.some.injEq] at hr
        rw [hr]
    rw [hok]
    simp only [Except.toOption, Option.map_some']
    rw [(axis_validation_enforced ("in-memory") ("wavelength") ("flux")
      uNm uJy 1 [] [] ⟨[], [], [], [], 0⟩ ([], [])
      ⟨["wavelength", "flux"],
        [[Val.fin 1, Val.fin 2], [Val.fin 2, Val.fin 3]]⟩).2 r hok]

theorem spectralFactorVal_eq_none (d1 d2 : Dim) (lam : Val)
    (h : spectralDensityApplicable d1 d2 = false) :
    spectralFactorVal d1 d2 lam = none := by
  have n1 : ¬(d1 = dimFLambda ∧ d2 = dimFNu) := by
    rintro ⟨ha, hb⟩; rw [ha, hb] at h; exact absurd h (by decide)
  have n2 : ¬(d1 = dimFNu ∧ d2 = dimFLambda) := by
    rintro ⟨ha, hb⟩; rw [ha, hb] at h; exact absurd h (by decide)
  have n3 : ¬(d1 = dimNuFnu ∧ d2 = dimFNu) := by
    rintro ⟨ha, hb⟩; rw [ha, hb] at h; exact absurd h (by decide)
  have n4 : ¬(d1 = dimFNu ∧ d2 = dimNuFnu) := by
    rintro ⟨ha, hb⟩; rw [ha, hb] at h; exact absurd h (by decide)
  have n5 : ¬(d1 = dimNuFnu ∧ d2 = dimFLambda) := by
    rintro ⟨ha, hb⟩; rw [ha, hb] at h; exact absurd h (by decide)
  have n6 : ¬(d1 = dimFLambda ∧ d2 = dimNuFnu) := by
    rintro ⟨ha, hb⟩; rw [ha, hb] at h; exact absurd h (by decide)
  unfold spectralFactorVal
  rw [if_neg n1, if_neg n2, if_neg n3, if_neg n4, if_neg n5, if_neg n6]

theorem convertFluxVal_id (uf : PhysUnit) (lam v : Val)
    (hdirect : convertFactor uf CANONICAL_FLUX_UNIT = none)
    (happl : spectralDensityApplicable uf.dim CANONICAL_FLUX_UNIT.dim = false) :
    convertFluxVal uf lam v = v := by
  unfold convertFluxVal
  rw [hdirect, spectralFactorVal_eq_none _ _ _ happl]

theorem convertFluxUnit_id (uf : PhysUnit)
    (hdirect : convertFactor uf CANONICAL_FLUX_UNIT = none)
    (happl : spectralDensityApplicable uf.dim CANONICAL_FLUX_UNIT.dim = false) :
    convertFluxUnit uf = uf := by
  unfold convertFluxUnit
  rw [hdirect, happl]
  rfl

/-- C4 counterexample: with a NaN wavelength in the axis, the loader DOES
raise even though the flux unit (seconds, from the label "flux (s)") is
unconvertible on both paths — the `Spectrum` constructor rejects the
NaN-bearing axis before any record is produced, so the claim's "does not
raise" does not hold unconditionally. -/
theorem unconvertible_flux_raises_on_nan_axis :
    assembleRecord ("in-memory") ("wavelength") ("flux (s)")
        [Val.fin 1, Val.nan] [Val.fin 3, Val.fin 4] ⟨[], [], [], [], 2⟩
      = .error ("Spectral axis must be strictly increasing or decreasing.") :=
  rfl

/-- C4 (amended): when the flux unit converts to the canonical flux unit
neither directly nor via the spectral-density equivalency, and the
wavelength cells are all finite (so the spectral axis passes the
`Spectrum` constructor's validation), the loader does not raise: the
record is produced with the flux values unchanged (beyond the
sort/deduplication of the axis), the flux keeps its original unit, and that
unit is recorded in the metadata extra mapping under "flux_unit". -/
theorem unconvertible_flux_kept_and_recorded
    (source waveCol fluxCol : String) (waves flux : List Val)
    (analytics : FinalizeResult) (k : ℚ)
    (hlen : waves.length = flux.length)
    (hfin : ∀ v ∈ waves, v.isFinite = true)
    (hwave : convertFactor ((infer_unit_from_label waveCol).getD
      CANONICAL_WAVELENGTH_UNIT) CANONICAL_WAVELENGTH_UNIT = some k)
    (hdirect : convertFactor ((infer_unit_from_label fluxCol).getD
      CANONICAL_FLUX_UNIT) CANONICAL_FLUX_UNIT = none)
    (happl : spectralDensityApplicable
      ((infer_unit_from_label fluxCol).getD CANONICAL_FLUX_UNIT).dim
      CANONICAL_FLUX_UNIT.dim = false) :
    ∃ r af,
      assembleRecord source waveCol fluxCol waves flux analytics = .ok r
      ∧ spectralAxisNormalize
          (waves.map (fun v => Val.mul v (Val.fin k))) flux = .ok af
      ∧ r.flux = af.2
      ∧ r.fluxUnit = (infer_unit_from_label fluxCol).getD CANONICAL_FLUX_UNIT
      ∧ r.extra.lookup ("flux_unit")
        = some (.unitVal ((infer_unit_from_label fluxCol).getD
            CANONICAL_FLUX_UNIT)) := by
  obtain ⟨af, haf⟩ := spectralAxisNormalize_ok
    (waves.map (fun v => Val.mul v (Val.fin k))) flux
  have hconv : ∀ v ∈ waves.map (fun v => Val.mul v (Val.fin k)),
      ∃ q, v = Val.fin q := by
    intro v hv
    obtain ⟨w, hw, hwv⟩ := List.mem_map.mp hv
    obtain ⟨q, hq⟩ := isFinite_exists w (hfin w hw)
    exact ⟨q * k, by rw [← hwv, hq]; rfl⟩
  have hsi : strictIncr af.1 = true :=
    spectralAxisNormalize_strictIncr _ flux af haf hconv
  have hlens : af.1.length = af.2.length :=
    spectralAxisNormalize_lengths _ _ _ haf (by simpa using hlen)
  have hfluxid : (af.1.zip af.2).map
      (fun p => convertFluxVal ((infer_unit_from_label fluxCol).getD
        CANONICAL_FLUX_UNIT) p.1 p.2) = af.2 := by
    have hcong : ∀ p ∈ af.1.zip af.2,
        convertFluxVal ((infer_unit_from_label fluxCol).getD
          CANONICAL_FLUX_UNIT) p.1 p.2 = p.2 := by
      intro p _
      exact convertFluxVal_id _ _ _ hdirect happl
    rw [List.map_congr_left hcong]
    exact List.map_snd_zip af.1 af.2 (le_of_eq hlens.symm)
  obtain ⟨r, hr, hrflux, hrunit, hrextra⟩ :
      ∃ r, assembleRecord source waveCol fluxCol waves flux analytics = .ok r
        ∧ r.flux = (af.1.zip af.2).map
            (fun p => convertFluxVal ((infer_unit_from_label fluxCol).getD
              CANONICAL_FLUX_UNIT) p.1 p.2)
        ∧ r.fluxUnit = convertFluxUnit ((infer_unit_from_label fluxCol).getD
            CANONICAL_FLUX_UNIT)
        ∧ r.extra = recordExtra waveCol fluxCol
            ((infer_unit_from_label waveCol).getD CANONICAL_WAVELENGTH_UNIT)
            ((infer_unit_from_label fluxCol).getD CANONICAL_FLUX_UNIT)
            analytics
            (buildTiers waveCol fluxCol k
              ((infer_unit_from_label fluxCol).getD CANONICAL_FLUX_UNIT)
              analytics.reservoirs) := by
    have hstep : assembleRecord source waveCol fluxCol waves flux analytics
        = assembleWithK source waveCol fluxCol
            ((infer_unit_from_label waveCol).getD CANONICAL_WAVELENGTH_UNIT)
            ((infer_unit_from_label fluxCol).getD CANONICAL_FLUX_UNIT)
            k waves flux analytics := by
      unfold assembleRecord
      rw [hwave]
    rw [hstep, assembleWithK_eq_ok source waveCol fluxCol
      ((infer_unit_from_label waveCol).getD CANONICAL_WAVELENGTH_UNIT)
      ((infer_unit_from_label fluxCol).getD CANONICAL_FLUX_UNIT)
      k waves flux analytics af haf hsi]
    exact ⟨_, rfl, rfl, rfl, rfl⟩
  refine ⟨r, af, hr, haf, ?_, ?_, ?_⟩
  · rw [hrflux, hfluxid]
  · rw [hrunit]
    exact convertFluxUnit_id _ hdirect happl
  · rw [hrextra]
    unfold recordExtra
    rw [convertFluxUnit_id _ hdirect happl]
    rfl

/-- Witness for the amended C4 theorem: the flux column label "flux (s)"
infers the unit seconds, which converts to Jansky neither directly nor via
the spectral-density equivalency; the wavelengths are all finite. -/
theorem unconvertible_flux_kept_and_recorded_witness :
    ∃ r af,
      assembleRecord ("in-memory") ("wavelength") ("flux (s)")
          [Val.fin 1, Val.fin 2] [Val.fin 3, Val.fin 4]
          ⟨[], [], [], [], 2⟩ = .ok r
      ∧ spectralAxisNormalize
          ([Val.fin 1, Val.fin 2].map (fun v => Val.mul v (Val.fin 1)))
          [Val.fin 3, Val.fin 4] = .ok af
      ∧ r.flux = af.2
      ∧ r.fluxUnit = (infer_unit_from_label ("flux (s)")).getD
          CANONICAL_FLUX_UNIT
      ∧ r.extra.lookup ("flux_unit")
        = some (.unitVal ((infer_unit_from_label ("flux (s)")).getD
            CANONICAL_FLUX_UNIT)) :=
  unconvertible_flux_kept_and_recorded ("in-memory") ("wavelength")
    ("flux (s)") [Val.fin 1, Val.fin 2] [Val.fin 3, Val.fin 4]
    ⟨[], [], [], [], 2⟩ 1 (by decide) (by decide) (by decide) (by decide)
    (by decide)

theorem filter_beq_singleton_of_nodup (l : List Val) (x : Val)
    (hnd : l.Nodup) (hx : x ∈ l) : l.filter (fun u => u == x) = [x] := by
  induction l with
  | nil => cases hx
  | cons a rest ih =>
    rw [List.nodup_cons] at hnd
    rcases List.mem_cons.mp hx with h | h
    · rw [h]
      rw [List.filter_cons_of_pos (by simp)]
      have hrest : rest.filter (fun u => u == a) = [] := by
        rw [List.filter_eq_nil_iff]
        intro b hb
        simp only [beq_iff_eq]
        intro hba
        exact hnd.1 (hba ▸ hb)
      rw [hrest]
    · have hne : (a == x) = false := by
        simp only [beq_eq_false_iff_ne, ne_eq]
        intro hax
        exact hnd.1 (hax ▸ h)
      rw [List.filter_cons_of_neg (by simp [hne])]
      exact ih hnd.2 h

theorem perm_pair_cases {α : Type} {x y a b : α}
    (h : List.Perm [x, y] [a, b]) :
    (x = a ∧ y = b) ∨ (x = b ∧ y = a) := by
  have hx : x ∈ [a, b] := h.mem_iff.mp (by simp)
  rcases List.mem_cons.mp hx with h1 | h1
  · subst h1
    left
    refine ⟨rfl, ?_⟩
    have := h.cons_inv
    simpa using List.perm_singleton.mp this
  · have h1 : x = b := by simpa using h1
    subst h1
    right
    refine ⟨rfl, ?_⟩
    have hswap : List.Perm [x, y] [x, a] :=
      h.trans (List.Perm.swap x a [])
    have := hswap.cons_inv
    simpa using List.perm_singleton.mp this

/-- A pair list whose keys map-to-zip roundtrip: zipping the two projections
reassembles the list. -/
theorem zip_fst_snd {α β : Type} (l : List (α × β)) :
    (l.map Prod.fst).zip (l.map Prod.snd) = l := by
  rw [List.zip_map']
  exact (List.map_congr_left fun a _ => rfl).trans (List.map_id l)

/-- The collapse step on (wavelength, flux) pairs: when exactly two pairs
carry the wavelength `w`, the sorted-deduplicated list carries exactly one
pair at `w`, whose flux is the average of the two (computed as the
`np.zeros` base plus the group sum, divided by the group count). -/
theorem sortDedup_filter_pair (ps : List (Val × Val)) (w : ℚ) (f1 f2 : Val)
    (hfilter : ps.filter (fun p => p.1 == Val.fin w)
      = [(Val.fin w, f1), (Val.fin w, f2)]) :
    (sortDedup ps).filter (fun p => p.1 == Val.fin w)
      = [(Val.fin w, Val.divNat 2 (Val.add f1 f2))] := by
  have hperm := (sortPairs_perm ps).filter (fun p => p.1 == Val.fin w)
  have hsflen : ((sortPairs ps).filter
      (fun p => p.1 == Val.fin w)).length = 2 := by
    rw [hperm.length_eq, hfilter]
    rfl
  obtain ⟨p1, p2, hp12⟩ := List.length_eq_two.mp hsflen
  have hpairperm : List.Perm [p1, p2] [(Val.fin w, f1), (Val.fin w, f2)] := by
    rw [← hp12, ← hfilter]
    exact hperm
  have hkey := sortPairs_keys_pairwise ps
  have hmemw : Val.fin w ∈ (sortPairs ps).map Prod.fst := by
    have hp1 : p1 ∈ (sortPairs ps).filter (fun p => p.1 == Val.fin w) := by
      rw [hp12]
      simp
    have hp1w : p1.1 = Val.fin w := by
      simpa using List.of_mem_filter hp1
    rw [← hp1w]
    exact List.mem_map_of_mem Prod.fst (List.mem_of_mem_filter hp1)
  have hwsfilter : ((sortPairs ps).map Prod.fst).filter
        (fun u => u == Val.fin w)
      = ((sortPairs ps).filter (fun p => p.1 == Val.fin w)).map Prod.fst := by
    rw [List.filter_map]
    exact congrArg (List.map Prod.fst) (List.filter_congr fun x _ => rfl)
  have hbranch : (dedupKeys ((sortPairs ps).map Prod.fst)).length
      ≠ ((sortPairs ps).map Prod.fst).length := by
    intro hEq
    have hded := dedupKeys_eq_of_length _ hEq
    have hnd : ((sortPairs ps).map Prod.fst).Nodup := by
      rw [← hded]
      exact nodup_dedupKeys_of_sorted _ hkey
    have hsing := filter_beq_singleton_of_nodup _ _ hnd hmemw
    rw [hwsfilter] at hsing
    have h21 : (2 : ℕ) = 1 := by
      calc (2 : ℕ)
          = (((sortPairs ps).filter
              (fun p => p.1 == Val.fin w)).map Prod.fst).length := by
            rw [List.length_map, hsflen]
        _ = 1 := by rw [hsing]; rfl
    cases h21
  have hsd : sortDedup ps
      = (dedupKeys ((sortPairs ps).map Prod.fst)).map
        (fun u => (u, Val.divNat (countAt u (sortPairs ps))
          (fluxAt u (sortPairs ps)))) := by
    simp only [sortDedup]
    rw [if_pos hbranch]
  have hcount : countAt (Val.fin w) (sortPairs ps) = 2 := hsflen
  have hflux : fluxAt (Val.fin w) (sortPairs ps) = Val.add f1 f2 := by
    unfold fluxAt
    rw [hp12]
    rcases perm_pair_cases hpairperm with ⟨h1, h2⟩ | ⟨h1, h2⟩
    · rw [h1, h2]
      show Val.add (Val.add (Val.fin 0) f1) f2 = Val.add f1 f2
      rw [val_add_zero_left]
    · rw [h1, h2]
      show Val.add (Val.add (Val.fin 0) f2) f1 = Val.add f1 f2
      rw [val_add_zero_left]
      exact Val.add_comm f2 f1
  have hndd := nodup_dedupKeys_of_sorted _ hkey
  have hmemd := mem_dedupKeys _ _ hmemw
  have hsingle := filter_beq_singleton_of_nodup _ _ hndd hmemd
  rw [hsd, List.filter_map]
  have hcongr : (dedupKeys ((sortPairs ps).map Prod.fst)).filter
      ((fun p : Val × Val => p.1 == Val.fin w) ∘
        (fun u => (u, Val.divNat (countAt u (sortPairs ps))
          (fluxAt u (sortPairs ps)))))
      = [Val.fin w] :=
    (List.filter_congr fun x _ => rfl).trans hsingle
  rw [hcongr]
  simp only [List.map_cons, List.map_nil]
  rw [hcount, hflux]

/-- C2 counterexample: wavelengths `[1, 1, NaN]` with fluxes `[4, 6, 9]`
(the NaN coerced from a non-numeric cell) contain two rows sharing the
wavelength `1`, yet `load_ascii_spectrum` produces NO output point at all:
the collapsed axis `[1, NaN]` fails the `Spectrum` constructor's
strict-monotonicity validation and the load raises the `ValueError`
instead of returning the averaged point. -/
theorem duplicate_wavelengths_not_averaged_on_nan_axis :
    load_ascii_spectrum ⟨["wavelength", "flux"],
        [[Val.fin 1, Val.fin 4], [Val.fin 1, Val.fin 6],
         [Val.nan, Val.fin 9]]⟩
      = .error ("Spectral axis must be strictly increasing or decreasing.") :=
  rfl

/-- C2 (amended): when the wavelength cells are all finite (so the collapsed
axis passes the `Spectrum` constructor's validation), two input rows sharing
the same wavelength `w` after conversion to the canonical wavelength unit
produce exactly one output point at `w`, whose flux is the arithmetic mean
of the two input flux values (passed through the same flux-unit conversion
chain as every other point). -/
theorem duplicate_wavelengths_averaged
    (source waveCol fluxCol : String) (waves flux : List Val)
    (analytics : FinalizeResult) (k w : ℚ) (f1 f2 : Val)
    (hlen : waves.length = flux.length)
    (hfin : ∀ v ∈ waves, v.isFinite = true)
    (hwave : convertFactor ((infer_unit_from_label waveCol).getD
      CANONICAL_WAVELENGTH_UNIT) CANONICAL_WAVELENGTH_UNIT = some k)
    (hfilter : ((waves.map (fun v => Val.mul v (Val.fin k))).zip flux).filter
        (fun p => p.1 == Val.fin w) = [(Val.fin w, f1), (Val.fin w, f2)]) :
    ∃ r, assembleRecord source waveCol fluxCol waves flux analytics = .ok r
      ∧ (r.axis.zip r.flux).filter (fun p => p.1 == Val.fin w)
        = [(Val.fin w, convertFluxVal
            ((infer_unit_from_label fluxCol).getD CANONICAL_FLUX_UNIT)
            (Val.fin w) (Val.divNat 2 (Val.add f1 f2)))] := by
  have h2le : 2 ≤ ((waves.map (fun v => Val.mul v (Val.fin k))).zip
      flux).length := by
    have hle := List.length_filter_le (fun p : Val × Val => p.1 == Val.fin w)
      ((waves.map (fun v => Val.mul v (Val.fin k))).zip flux)
    rw [hfilter] at hle
    exact hle
  have h1 : 1 < (waves.map (fun v => Val.mul v (Val.fin k))).length := by
    rw [List.length_zip, List.length_map, ← hlen, Nat.min_self] at h2le
    rw [List.length_map]
    omega
  obtain ⟨r, hr, hraxis, hrflux⟩ :
      ∃ r, assembleRecord source waveCol fluxCol waves flux analytics = .ok r
        ∧ r.axis = (sortDedup ((waves.map (fun v =>
            Val.mul v (Val.fin k))).zip flux)).map Prod.fst
        ∧ r.flux = (((sortDedup ((waves.map (fun v =>
              Val.mul v (Val.fin k))).zip flux)).map Prod.fst).zip
            ((sortDedup ((waves.map (fun v =>
              Val.mul v (Val.fin k))).zip flux)).map Prod.snd)).map
            (fun p => convertFluxVal ((infer_unit_from_label fluxCol).getD
              CANONICAL_FLUX_UNIT) p.1 p.2) := by
    have hstep : assembleRecord source waveCol fluxCol waves flux analytics
        = assembleWithK source waveCol fluxCol
            ((infer_unit_from_label waveCol).getD CANONICAL_WAVELENGTH_UNIT)
            ((infer_unit_from_label fluxCol).getD CANONICAL_FLUX_UNIT)
            k waves flux analytics := by
      unfold assembleRecord
      rw [hwave]
    have hzipfin : ∀ p ∈ (waves.map (fun v => Val.mul v (Val.fin k))).zip flux,
        ∃ q, p.1 = Val.fin q := by
      intro p hp
      obtain ⟨v, hv, hvp⟩ := List.mem_map.mp (List.of_mem_zip hp).1
      obtain ⟨q, hq⟩ := isFinite_exists v (hfin v hv)
      exact ⟨q * k, by rw [← hvp, hq]; rfl⟩
    rw [hstep, assembleWithK_eq_ok source waveCol fluxCol
      ((infer_unit_from_label waveCol).getD CANONICAL_WAVELENGTH_UNIT)
      ((infer_unit_from_label fluxCol).getD CANONICAL_FLUX_UNIT)
      k waves flux analytics _
      (spectralAxisNormalize_eq _ flux h1)
      (strictIncr_sortDedup_keys_of_finite _ hzipfin)]
    exact ⟨_, rfl, rfl, rfl⟩
  have hzipeq : r.axis.zip r.flux
      = (sortDedup ((waves.map (fun v =>
          Val.mul v (Val.fin k))).zip flux)).map
        (fun p => (p.1, convertFluxVal ((infer_unit_from_label fluxCol).getD
          CANONICAL_FLUX_UNIT) p.1 p.2)) := by
    rw [hraxis, hrflux, zip_fst_snd, List.zip_map']
  refine ⟨r, hr, ?_⟩
  rw [hzipeq, List.filter_map]
  have hcongr : (sortDedup ((waves.map (fun v =>
        Val.mul v (Val.fin k))).zip flux)).filter
      ((fun p : Val × Val => p.1 == Val.fin w) ∘
        (fun p => (p.1, convertFluxVal ((infer_unit_from_label fluxCol).getD
          CANONICAL_FLUX_UNIT) p.1 p.2)))
      = [(Val.fin w, Val.divNat 2 (Val.add f1 f2))] :=
    (List.filter_congr fun x _ => rfl).trans
      (sortDedup_filter_pair _ w f1 f2 hfilter)
  rw [hcongr]
  rfl

/-- Witness for the amended C2 theorem: wavelengths `[1, 1]` with fluxes
`[4, 6]` collapse to the single point `(1, 5)`. -/
theorem duplicate_wavelengths_averaged_witness :
    ∃ r, assembleRecord ("in-memory") ("wavelength") ("flux")
        [Val.fin 1, Val.fin 1] [Val.fin 4, Val.fin 6]
        ⟨[], [], [], [], 2⟩ = .ok r
      ∧ (r.axis.zip r.flux).filter (fun p => p.1 == Val.fin 1)
        = [(Val.fin 1, convertFluxVal
            ((infer_unit_from_label ("flux")).getD CANONICAL_FLUX_UNIT)
            (Val.fin 1) (Val.divNat 2 (Val.add (Val.fin 4) (Val.fin 6))))] :=
  duplicate_wavelengths_averaged ("in-memory") ("wavelength") ("flux")
    [Val.fin 1, Val.fin 1] [Val.fin 4, Val.fin 6] ⟨[], [], [], [], 2⟩
    1 1 (Val.fin 4) (Val.fin 6) rfl (by decide) (by decide) (by decide)

/-! ## The JWST spectrum loader (`jwst_viewer.spectrum_loader`) -/

theorem val_mul_pos_mul (v : Val) (a b : ℚ) (ha : 0 < a) (hb : 0 < b) :
    Val.mul (Val.mul v (Val.fin a)) (Val.fin b) = Val.mul v (Val.fin (a * b)) := by
  cases v with
  | fin q => simp [Val.mul, mul_assoc]
  | nan => rfl
  | inf => simp [Val.mul, ha.ne', hb.ne', ha, hb, mul_pos ha hb,
      (mul_pos ha hb).ne']
  | ninf => simp [Val.mul, ha.ne', hb.ne', ha, hb, mul_pos ha hb,
      (mul_pos ha hb).ne']

theorem val_mul_one (v : Val) : Val.mul v (Val.fin 1) = v := by
  cases v <;> simp [Val.mul]

/-- A spectrum as held by `JWSTSpectrumLoader`: unit-tagged flux and
spectral-axis arrays. -/
structure ModelSpectrum1D where
  flux : List Val
  fluxUnit : PhysUnit
  axis : List Val
  axisUnit : PhysUnit
deriving DecidableEq

/-- The absolute tolerance of `_verify_round_trip`. -/
def ATOL : ℚ := 1 / 1000000000000

/-- The relative tolerance of `_verify_round_trip`. -/
def RTOL : ℚ := 1 / 1000000000

/-- One comparison of `np.allclose`: `|a - b| <= atol + rtol * |b|`; nothing
is close to NaN; equal infinities are close. -/
def valClose (a b : Val) : Bool :=
  match a, b with
  | .fin x, .fin y => decide (|x - y| ≤ ATOL + RTOL * |y|)
  | .inf, .inf => true
  | .ninf, .ninf => true
  | _, _ => false

/-- Model of `np.allclose` over equal-length arrays. -/
def allClose (xs ys : List Val) : Bool :=
  (xs.length == ys.length) && (xs.zip ys).all (fun p => valClose p.1 p.2)

/-- `Quantity.to`: elementwise scale by the conversion factor, raising
`UnitConversionError` on a dimension mismatch. -/
def qto (vs : List Val) (fromU toU : PhysUnit) : Except String (List Val) :=
  match convertFactor fromU toU with
  | some k => .ok (vs.map (fun v => Val.mul v (Val.fin k)))
  | none => .error ("UnitConversionError")

/-- Model of `JWSTSpectrumLoader._verify_round_trip`: convert each array to
its own unit and compare with the original under the tolerances. -/
def verify_round_trip (s : ModelSpectrum1D) : Bool :=
  allClose (s.flux.map (fun v =>
      Val.mul v (Val.fin (s.fluxUnit.scale / s.fluxUnit.scale)))) s.flux
  && allClose (s.axis.map (fun v =>
      Val.mul v (Val.fin (s.axisUnit.scale / s.axisUnit.scale)))) s.axis

/-- Model of `JWSTSpectrumLoader.convert_units`: a new spectrum in the
requested units plus the round-trip status. -/
def convert_units (s : ModelSpectrum1D) (fluxUnit axisUnit : PhysUnit) :
    Except String (ModelSpectrum1D × Bool) :=
  match qto s.flux s.fluxUnit fluxUnit, qto s.axis s.axisUnit axisUnit with
  | .ok f, .ok a =>
    .ok (⟨f, fluxUnit, a, axisUnit⟩,
      verify_round_trip ⟨f, fluxUnit, a, axisUnit⟩)
  | .error e, _ => .error e
  | _, .error e => .error e

/-- C7: converting a spectrum's flux (and axis) to a dimensionally
compatible target unit and back reproduces the original values exactly in
the rational model, and the round-trip verification returns true only if
every back-converted value matches the original within absolute tolerance
1e-12 and relative tolerance 1e-9. -/
theorem convert_units_round_trip (s : ModelSpectrum1D) (fu au : PhysUnit)
    (hdf : s.fluxUnit.dim = fu.dim) (hda : s.axisUnit.dim = au.dim)
    (hs1 : 0 < s.fluxUnit.scale) (hs2 : 0 < fu.scale)
    (hs3 : 0 < s.axisUnit.scale) (hs4 : 0 < au.scale) :
    ∃ s' verified, convert_units s fu au = .ok (s', verified)
      ∧ qto s'.flux fu s.fluxUnit = .ok s.flux
      ∧ qto s'.axis au s.axisUnit = .ok s.axis
      ∧ (verified = true →
          (∀ p ∈ (s'.flux.map (fun v => Val.mul v
              (Val.fin (s'.fluxUnit.scale / s'.fluxUnit.scale)))).zip s'.flux,
            valClose p.1 p.2 = true)
          ∧ (∀ p ∈ (s'.axis.map (fun v => Val.mul v
              (Val.fin (s'.axisUnit.scale / s'.axisUnit.scale)))).zip s'.axis,
            valClose p.1 p.2 = true)) := by
  have hback : ∀ (vs : List Val) (u1 u2 : PhysUnit), 0 < u1.scale →
      0 < u2.scale →
      (vs.map (fun v => Val.mul v (Val.fin (u1.scale / u2.scale)))).map
            (fun v => Val.mul v (Val.fin (u2.scale / u1.scale)))
        = vs := by
    intro vs u1 u2 h1 h2
    rw [List.map_map]
    have hone : ∀ v : Val, (Val.mul (Val.mul v
        (Val.fin (u1.scale / u2.scale))) (Val.fin (u2.scale / u1.scale))) = v := by
      intro v
      rw [val_mul_pos_mul v _ _ (div_pos h1 h2) (div_pos h2 h1)]
      rw [div_mul_div_comm, mul_comm u1.scale u2.scale,
        div_self (by positivity), val_mul_one]
    calc (vs.map ((fun v => Val.mul v (Val.fin (u2.scale / u1.scale)))
          ∘ (fun v => Val.mul v (Val.fin (u1.scale / u2.scale)))))
        = vs.map id := List.map_congr_left (fun v _ => hone v)
      _ = vs := List.map_id vs
  have hqf : qto s.flux s.fluxUnit fu
      = .ok (s.flux.map (fun v =>
          Val.mul v (Val.fin (s.fluxUnit.scale / fu.scale)))) := by
    unfold qto convertFactor
    rw [if_pos hdf]
  have hqa : qto s.axis s.axisUnit au
      = .ok (s.axis.map (fun v =>
          Val.mul v (Val.fin (s.axisUnit.scale / au.scale)))) := by
    unfold qto convertFactor
    rw [if_pos hda]
  refine ⟨⟨s.flux.map (fun v =>
        Val.mul v (Val.fin (s.fluxUnit.scale / fu.scale))), fu,
      s.axis.map (fun v =>
        Val.mul v (Val.fin (s.axisUnit.scale / au.scale))), au⟩,
    verify_round_trip ⟨s.flux.map (fun v =>
        Val.mul v (Val.fin (s.fluxUnit.scale / fu.scale))), fu,
      s.axis.map (fun v =>
        Val.mul v (Val.fin (s.axisUnit.scale / au.scale))), au⟩,
    ?_, ?_, ?_, ?_⟩
  · unfold convert_units
    rw [hqf, hqa]
  · unfold qto convertFactor
    rw [if_pos hdf.symm]
    simp only [Except.ok.injEq]
    exact hback s.flux s.fluxUnit fu hs1 hs2
  · unfold qto convertFactor
    rw [if_pos hda.symm]
    simp only [Except.ok.injEq]
    exact hback s.axis s.axisUnit au hs3 hs4
  · intro hv
    unfold verify_round_trip at hv
    rw [Bool.and_eq_true] at hv
    obtain ⟨hvf, hva⟩ := hv
    unfold allClose at hvf hva
    rw [Bool.and_eq_true] at hvf hva
    constructor
    · intro p hp
      exact (List.all_eq_true.mp hvf.2) p hp
    · intro p hp
      exact (List.all_eq_true.mp hva.2) p hp

/-- Witness for the C7 theorem: a one-point Jansky spectrum converted to
`W·m⁻²·Hz⁻¹` and micron axis to Angstrom. -/
theorem convert_units_round_trip_witness :
    ∃ s' verified,
      convert_units ⟨[Val.fin 1], uJy, [Val.fin 2], uMicron⟩
          ⟨1, dimFNu⟩ uAA = .ok (s', verified)
      ∧ qto s'.flux ⟨1, dimFNu⟩ uJy = .ok [Val.fin 1]
      ∧ qto s'.axis uAA uMicron = .ok [Val.fin 2]
      ∧ (verified = true →
          (∀ p ∈ (s'.flux.map (fun v => Val.mul v
              (Val.fin (s'.fluxUnit.scale / s'.fluxUnit.scale)))).zip s'.flux,
            valClose p.1 p.2 = true)
          ∧ (∀ p ∈ (s'.axis.map (fun v => Val.mul v
              (Val.fin (s'.axisUnit.scale / s'.axisUnit.scale)))).zip s'.axis,
            valClose p.1 p.2 = true)) :=
  convert_units_round_trip ⟨[Val.fin 1], uJy, [Val.fin 2], uMicron⟩
    ⟨1, dimFNu⟩ uAA (by decide) (by decide) (by decide) (by decide)
    (by decide) (by decide)

end SpectralApp
